import Mathlib

/-!
Verification development for the sqlalchemy-django-admin repository.

The repository synthesizes Django model classes from reflected SQLAlchemy
tables and adapts Django admin behaviour to them.  This file gives a shallow
embedding of the relevant code paths:

* `fields.py`: the `CompositeKey` token (base64-encoded JSON over UTF-8),
  `CompositeKeyField` (key extraction, per-column delete, exact lookup) and
  `RawJSONField.from_db_value`;
* `__init__.py`: the type-mapping table `SA_TYPE_TO_MODEL`,
  `_column_as_field` and `table_as_model`;
* `admin.py`: `ModelAdmin.get_list_display`.

Strings are modelled as lists of Unicode scalar values (`List Char`), which
matches Python strings without lone surrogates; machine text encodings
(UTF-8, base64) work over `Nat` byte values.  JSON values are restricted to
the scalar sublanguage actually used by composite-key tokens: `null`,
booleans, (arbitrary-precision) integers and strings.  Floating-point
numbers, arrays and nested objects are outside the embedded domain; the
embedded parser rejects them where Python would build values that the model
cannot represent.
-/

/-- Python strings, as sequences of Unicode scalar values. -/
abbrev Str := List Char

/-- Lexicographic order on code points; Python comparison of strings. -/
def strLeb : Str → Str → Bool
  | [], _ => true
  | _ :: _, [] => false
  | a :: as, b :: bs =>
    if a.toNat < b.toNat then true
    else if b.toNat < a.toNat then false
    else strLeb as bs

/-- JSON scalar values: the value domain of composite-key tokens. -/
inductive JScalar where
  | null
  | b (v : Bool)
  | i (v : Int)
  | s (v : Str)
  deriving DecidableEq

/-- Python dict with string keys, as an association list in insertion order. -/
abbrev JDict := List (Str × JScalar)

/-- Lookup in an association list (first matching key). -/
def alookup {α : Type} : List (Str × α) → Str → Option α
  | [], _ => none
  | p :: rest, k => if p.1 = k then some p.2 else alookup rest k

/-- Membership test for a key. -/
def containsKey {α : Type} (d : List (Str × α)) (k : Str) : Bool :=
  (alookup d k).isSome

/-- Python dict insertion: an existing key keeps its position and receives the
new value, a fresh key is appended at the end. -/
def dictInsert {α : Type} (d : List (Str × α)) (k : Str) (v : α) : List (Str × α) :=
  if containsKey d k then d.map (fun p => if p.1 = k then (k, v) else p)
  else d ++ [(k, v)]

/-- Semantics of building a Python dict from a sequence of key/value pairs. -/
def fromPairs {α : Type} (ps : List (Str × α)) : List (Str × α) :=
  ps.foldl (fun d p => dictInsert d p.1 p.2) []

/-- Python dict equality: same length and every item of the first is an item
of the second. -/
def dictBeq (d1 d2 : JDict) : Bool :=
  (d1.length == d2.length) && d1.all (fun p => decide (alookup d2 p.1 = some p.2))

/-- Insertion of a string into a sorted list of strings. -/
def insortStr (x : Str) : List Str → List Str
  | [] => [x]
  | y :: ys => if strLeb x y then x :: y :: ys else y :: insortStr x ys

/-- Semantics of Python sorted() on a list of strings. -/
def sortStrs : List Str → List Str
  | [] => []
  | x :: xs => insortStr x (sortStrs xs)

/-- Deterministic stand-in for Python hash() on a JSON scalar.  Only the
determinism of the function matters for the claims, not its precise values. -/
def scalarHash : JScalar → Nat
  | .null => 0
  | .b false => 1
  | .b true => 2
  | .i v => 3 + 2 * v.natAbs + (if v < 0 then 1 else 0)
  | .s v => 7 + v.foldl (fun h c => h * 31 + c.toNat + 1) 0

/-- Deterministic stand-in for Python hash() on a tuple of scalars. -/
def tupleHash (l : List JScalar) : Nat :=
  l.foldl (fun h v => h * 1000003 + scalarHash v + 1) 5381

/-- Digit characters of the lowercase hexadecimal alphabet used by the
JSON encoder's escape formatting. -/
def hexDigitChar (n : Nat) : Char :=
  "0123456789abcdef".toList.getD n '0'

/-- Value of a hexadecimal digit character, upper or lower case. -/
def fromHexDigit (c : Char) : Option Nat :=
  if c = '0' then some 0 else if c = '1' then some 1
  else if c = '2' then some 2 else if c = '3' then some 3
  else if c = '4' then some 4 else if c = '5' then some 5
  else if c = '6' then some 6 else if c = '7' then some 7
  else if c = '8' then some 8 else if c = '9' then some 9
  else if c = 'a' then some 10 else if c = 'b' then some 11
  else if c = 'c' then some 12 else if c = 'd' then some 13
  else if c = 'e' then some 14 else if c = 'f' then some 15
  else if c = 'A' then some 10 else if c = 'B' then some 11
  else if c = 'C' then some 12 else if c = 'D' then some 13
  else if c = 'E' then some 14 else if c = 'F' then some 15
  else none

/-- Four-digit hexadecimal rendering, as in the \uXXXX escapes produced by
Python json.dumps. -/
def toHex4 (n : Nat) : Str :=
  [hexDigitChar (n / 4096 % 16), hexDigitChar (n / 256 % 16),
   hexDigitChar (n / 16 % 16), hexDigitChar (n % 16)]

/-- Value of four hexadecimal digit characters. -/
def fromHex4 (a b c d : Char) : Option Nat :=
  match fromHexDigit a, fromHexDigit b, fromHexDigit c, fromHexDigit d with
  | some x, some y, some z, some w => some (4096 * x + 256 * y + 16 * z + w)
  | _, _, _, _ => none

/-- Escape of one character by Python json.dumps with its default
ensure_ascii=True: printable ASCII other than quote and backslash is kept,
the short escapes cover the usual control characters, everything else
becomes \uXXXX, with a surrogate pair for astral code points. -/
def escChar (c : Char) : Str :=
  let n := c.toNat
  if c = '"' then ['\\', '"']
  else if c = '\\' then ['\\', '\\']
  else if 32 ≤ n ∧ n ≤ 126 then [c]
  else if c = '\x08' then ['\\', 'b']
  else if c = '\x0C' then ['\\', 'f']
  else if c = '\n' then ['\\', 'n']
  else if c = '\r' then ['\\', 'r']
  else if c = '\t' then ['\\', 't']
  else if n < 65536 then '\\' :: 'u' :: toHex4 n
  else
    ('\\' :: 'u' :: toHex4 (55296 + (n - 65536) / 1024)) ++
    ('\\' :: 'u' :: toHex4 (56320 + (n - 65536) % 1024))

/-- Escaped body of a JSON string literal. -/
def serStrBody : Str → Str
  | [] => []
  | c :: rest => escChar c ++ serStrBody rest

/-- JSON string literal for a Python string. -/
def serStr (s : Str) : Str :=
  '"' :: (serStrBody s ++ ['"'])

/-- Decimal digits of a natural number; the fuel argument only bounds the
recursion depth and any fuel above the number itself gives the same result. -/
def natDigitsAux : Nat → Nat → Str
  | 0, _ => []
  | fuel + 1, n =>
    if n < 10 then [hexDigitChar n]
    else natDigitsAux fuel (n / 10) ++ [hexDigitChar (n % 10)]

/-- Decimal rendering of a natural number, as Python str(). -/
def natDigits (n : Nat) : Str :=
  natDigitsAux (n + 1) n

/-- Decimal rendering of an integer, as Python str(). -/
def intDigits : Int → Str
  | .ofNat m => natDigits m
  | .negSucc m => '-' :: natDigits (m + 1)

/-- Serialization of one JSON scalar by json.dumps. -/
def serVal : JScalar → Str
  | .null => ['n', 'u', 'l', 'l']
  | .b true => ['t', 'r', 'u', 'e']
  | .b false => ['f', 'a', 'l', 's', 'e']
  | .i v => intDigits v
  | .s v => serStr v

/-- Serialization of one key/value member with the default ": " separator. -/
def serMember (p : Str × JScalar) : Str :=
  serStr p.1 ++ [':', ' '] ++ serVal p.2

/-- Serialization of the members of an object with the default ", "
separator. -/
def serMembersList : JDict → Str
  | [] => []
  | [p] => serMember p
  | p :: q :: rest => serMember p ++ [',', ' '] ++ serMembersList (q :: rest)

/-- Python json.dumps on a dict of scalars (default separators,
ensure_ascii=True). -/
def jsonDumps (d : JDict) : Str :=
  '{' :: (serMembersList d ++ ['}'])

/-- JSON whitespace characters. -/
def isWsCh (c : Char) : Bool :=
  c == ' ' || c == '\t' || c == '\n' || c == '\r'

/-- ASCII decimal digit test. -/
def isDigitCh (c : Char) : Bool :=
  decide (48 ≤ c.toNat ∧ c.toNat ≤ 57)

/-- Value of an ASCII decimal digit. -/
def digitVal (c : Char) : Nat :=
  c.toNat - 48

/-- Skipping JSON whitespace. -/
def skipWs : Str → Str
  | [] => []
  | c :: rest => if isWsCh c then skipWs rest else c :: rest

/-- Single-character JSON escapes accepted after a backslash. -/
def simpleEscape (c : Char) : Option Char :=
  if c = '"' then some '"'
  else if c = '\\' then some '\\'
  else if c = '/' then some '/'
  else if c = 'b' then some '\x08'
  else if c = 'f' then some '\x0C'
  else if c = 'n' then some '\n'
  else if c = 'r' then some '\r'
  else if c = 't' then some '\t'
  else none

/-- Decoding of one escape sequence after a backslash, as Python
json.loads does it: the single-character escapes, and \uXXXX escapes where
a high surrogate must be completed by a low surrogate to form one scalar
value (a lone surrogate would produce a Python string outside the embedded
domain and is rejected by the model).  Returns the decoded character and
the remaining input.  The low-surrogate completion of a \\uXXXX escape is
scanned by this helper. -/
def parseLowSurrogate : Str → Option (Nat × Str)
  | e1 :: e2 :: g1 :: g2 :: g3 :: g4 :: rest4 =>
    if e1 = '\\' ∧ e2 = 'u' then
      match fromHex4 g1 g2 g3 g4 with
      | none => none
      | some m => if 56320 ≤ m ∧ m < 57344 then some (m, rest4) else none
    else none
  | _ => none

/-- Decoding of one escape sequence after a backslash, continued. -/
def parseEsc : Str → Option (Char × Str)
  | [] => none
  | e :: rest2 =>
    if e = 'u' then
      match rest2 with
      | h1 :: h2 :: h3 :: h4 :: rest3 =>
        match fromHex4 h1 h2 h3 h4 with
        | none => none
        | some n =>
          if 55296 ≤ n ∧ n < 56320 then
            match parseLowSurrogate rest3 with
            | some p => some (Char.ofNat (65536 + (n - 55296) * 1024 + (p.1 - 56320)), p.2)
            | none => none
          else if 56320 ≤ n ∧ n < 57344 then none
          else some (Char.ofNat n, rest3)
      | _ => none
    else
      match simpleEscape e with
      | some ec => some (ec, rest2)
      | none => none

/-- Body of a JSON string literal after the opening quote, as scanned by
Python json.loads (strict mode): unescaped control characters are rejected
and escapes are decoded by parseEsc.  The fuel only bounds the recursion
depth; every step consumes at least one character, so the caller passes the
input length.  Returns the decoded string and the input following the
closing quote. -/
def parseStrBodyF : Nat → Str → Option (Str × Str)
  | 0, _ => none
  | fuel + 1, l =>
    match l with
    | [] => none
    | c :: rest =>
      if c = '"' then some ([], rest)
      else if c = '\\' then
        match parseEsc rest with
        | some p => (parseStrBodyF fuel p.2).map (fun q => (p.1 :: q.1, q.2))
        | none => none
      else if c.toNat < 32 then none
      else (parseStrBodyF fuel rest).map (fun q => (c :: q.1, q.2))

/-- Body of a JSON string literal, with the fuel instantiated to the input
length. -/
def parseStrBody (l : Str) : Option (Str × Str) :=
  parseStrBodyF (l.length + 1) l

/-- Greedy scan of decimal digits with an accumulator. -/
def parseDigitsAux : Nat → Str → Nat × Str
  | acc, [] => (acc, [])
  | acc, c :: rest =>
    if isDigitCh c then parseDigitsAux (acc * 10 + digitVal c) rest
    else (acc, c :: rest)

/-- Integer part of a JSON number as matched by Python's NUMBER_RE: either a
single 0 or a nonzero digit followed by digits; a leading zero followed by
another digit is rejected. -/
def parseNat : Str → Option (Nat × Str)
  | [] => none
  | c :: rest =>
    if c = '0' then
      match rest with
      | d :: _ => if isDigitCh d then none else some (0, rest)
      | [] => some (0, [])
    else if isDigitCh c then some (parseDigitsAux (digitVal c) rest)
    else none

/-- Test whether a number token continues with a fraction or exponent; such
numbers are floats, which lie outside the embedded scalar domain. -/
def floatFollows : Str → Bool
  | c :: _ => c == '.' || c == 'e' || c == 'E'
  | [] => false

/-- Condition that a suffix cannot extend a number token; the separators
and closing brace of a serialized object satisfy it. -/
def numBoundary : Str → Bool
  | [] => true
  | c :: _ => !(isDigitCh c || c == '.' || c == 'e' || c == 'E')

/-- One JSON scalar value, as scanned by Python json.loads restricted to the
scalar sublanguage of composite-key tokens (no arrays, no nested objects,
no floats). -/
def parseValue : Str → Option (JScalar × Str)
  | [] => none
  | c :: rest =>
    if c = '"' then (parseStrBody rest).map (fun p => (JScalar.s p.1, p.2))
    else if c = 't' then
      match rest with
      | c1 :: c2 :: c3 :: rest2 =>
        if c1 = 'r' ∧ c2 = 'u' ∧ c3 = 'e' then some (.b true, rest2) else none
      | _ => none
    else if c = 'f' then
      match rest with
      | c1 :: c2 :: c3 :: c4 :: rest2 =>
        if c1 = 'a' ∧ c2 = 'l' ∧ c3 = 's' ∧ c4 = 'e' then some (.b false, rest2) else none
      | _ => none
    else if c = 'n' then
      match rest with
      | c1 :: c2 :: c3 :: rest2 =>
        if c1 = 'u' ∧ c2 = 'l' ∧ c3 = 'l' then some (.null, rest2) else none
      | _ => none
    else if c = '-' then
      match parseNat rest with
      | some (n, rest2) =>
        if floatFollows rest2 then none else some (.i (-(n : Int)), rest2)
      | none => none
    else if isDigitCh c then
      match parseNat (c :: rest) with
      | some (n, rest2) =>
        if floatFollows rest2 then none else some (.i (n : Int), rest2)
      | none => none
    else none

/-- Members of a JSON object, positioned at the opening quote of a key and
consuming through the closing brace.  The fuel bounds the number of members;
the caller passes the input length, which always suffices because every
member occupies at least one character. -/
def parseMembers : Nat → Str → Option (List (Str × JScalar) × Str)
  | 0, _ => none
  | fuel + 1, l =>
    match l with
    | [] => none
    | c0 :: rest =>
      if c0 = '"' then
        match parseStrBody rest with
        | none => none
        | some (k, r1) =>
          match skipWs r1 with
          | [] => none
          | c1 :: r2 =>
            if c1 = ':' then
              match parseValue (skipWs r2) with
              | none => none
              | some (v, r3) =>
                match skipWs r3 with
                | [] => none
                | c2 :: r4 =>
                  if c2 = ',' then
                    match parseMembers fuel (skipWs r4) with
                    | none => none
                    | some (ps, r5) => some ((k, v) :: ps, r5)
                  else if c2 = '}' then some ([(k, v)], r4)
                  else none
            else none
      else none

/-- Python json.loads restricted to top-level objects of scalars: parses the
object, requires the input to be exhausted, and builds the resulting dict
from the member pairs in order (later duplicate keys overwrite earlier
ones, as in a Python dict). -/
def jsonLoads (l : Str) : Option JDict :=
  match skipWs l with
  | [] => none
  | c0 :: rest =>
    if c0 = '{' then
      match skipWs rest with
      | [] => none
      | c1 :: r2 =>
        if c1 = '}' then (if skipWs r2 = [] then some [] else none)
        else
          match parseMembers ((c1 :: r2).length + 1) (c1 :: r2) with
          | some (ps, r3) => if skipWs r3 = [] then some (fromPairs ps) else none
          | none => none
    else none

/-- UTF-8 encoding of one Unicode scalar value. -/
def utf8EncodeChar (c : Char) : List Nat :=
  let n := c.toNat
  if n < 128 then [n]
  else if n < 2048 then [192 + n / 64, 128 + n % 64]
  else if n < 65536 then [224 + n / 4096, 128 + n / 64 % 64, 128 + n % 64]
  else [240 + n / 262144, 128 + n / 4096 % 64, 128 + n / 64 % 64, 128 + n % 64]

/-- UTF-8 encoding of a string, as Python str.encode. -/
def utf8Encode : Str → List Nat
  | [] => []
  | c :: rest => utf8EncodeChar c ++ utf8Encode rest

/-- Strict UTF-8 decoding of one character from a byte sequence, as Python
bytes.decode: overlong encodings, surrogates, out-of-range code points and
truncated sequences are rejected. -/
def utf8DecodeOne : List Nat → Option (Char × List Nat)
  | [] => none
  | b :: rest =>
    if b < 128 then some (Char.ofNat b, rest)
    else if b < 192 then none
    else if b < 224 then
      match rest with
      | b2 :: rest2 =>
        if 128 ≤ b2 ∧ b2 < 192 then
          if 128 ≤ (b - 192) * 64 + (b2 - 128) then
            some (Char.ofNat ((b - 192) * 64 + (b2 - 128)), rest2)
          else none
        else none
      | [] => none
    else if b < 240 then
      match rest with
      | b2 :: b3 :: rest2 =>
        if 128 ≤ b2 ∧ b2 < 192 ∧ 128 ≤ b3 ∧ b3 < 192 then
          if 2048 ≤ (b - 224) * 4096 + (b2 - 128) * 64 + (b3 - 128) ∧
              ¬(55296 ≤ (b - 224) * 4096 + (b2 - 128) * 64 + (b3 - 128) ∧
                (b - 224) * 4096 + (b2 - 128) * 64 + (b3 - 128) < 57344) then
            some (Char.ofNat ((b - 224) * 4096 + (b2 - 128) * 64 + (b3 - 128)), rest2)
          else none
        else none
      | _ => none
    else if b < 248 then
      match rest with
      | b2 :: b3 :: b4 :: rest2 =>
        if 128 ≤ b2 ∧ b2 < 192 ∧ 128 ≤ b3 ∧ b3 < 192 ∧ 128 ≤ b4 ∧ b4 < 192 then
          if 65536 ≤ (b - 240) * 262144 + (b2 - 128) * 4096 + (b3 - 128) * 64 + (b4 - 128) ∧
              (b - 240) * 262144 + (b2 - 128) * 4096 + (b3 - 128) * 64 + (b4 - 128) < 1114112 then
            some (Char.ofNat
              ((b - 240) * 262144 + (b2 - 128) * 4096 + (b3 - 128) * 64 + (b4 - 128)), rest2)
          else none
        else none
      | _ => none
    else none

/-- Strict UTF-8 decoding of a byte sequence; the fuel only bounds the
recursion depth and every step consumes at least one byte, so the caller
passes the input length. -/
def utf8DecodeF : Nat → List Nat → Option Str
  | _, [] => some []
  | 0, _ :: _ => none
  | fuel + 1, b :: rest =>
    match utf8DecodeOne (b :: rest) with
    | some p => (utf8DecodeF fuel p.2).map (fun s => p.1 :: s)
    | none => none

/-- Strict UTF-8 decoding of a byte sequence, as Python bytes.decode. -/
def utf8Decode (l : List Nat) : Option Str :=
  utf8DecodeF (l.length + 1) l

/-- Character of one 6-bit value in the standard base64 alphabet. -/
def b64Char (n : Nat) : Char :=
  "ABCDEFGHIJKLMNOPQRSTUVWXYZabcdefghijklmnopqrstuvwxyz0123456789+/".toList.getD n 'A'

/-- Value of a base64 alphabet character. -/
def b64CharVal (c : Char) : Option Nat :=
  if 65 ≤ c.toNat ∧ c.toNat ≤ 90 then some (c.toNat - 65)
  else if 97 ≤ c.toNat ∧ c.toNat ≤ 122 then some (c.toNat - 97 + 26)
  else if 48 ≤ c.toNat ∧ c.toNat ≤ 57 then some (c.toNat - 48 + 52)
  else if c = '+' then some 62
  else if c = '/' then some 63
  else none

/-- Standard base64 encoding with padding, as Python base64.b64encode. -/
def b64e : List Nat → Str
  | b0 :: b1 :: b2 :: rest =>
    b64Char ((b0 * 65536 + b1 * 256 + b2) / 262144) ::
      b64Char ((b0 * 65536 + b1 * 256 + b2) / 4096 % 64) ::
      b64Char ((b0 * 65536 + b1 * 256 + b2) / 64 % 64) ::
      b64Char ((b0 * 65536 + b1 * 256 + b2) % 64) :: b64e rest
  | [b0, b1] =>
    [b64Char ((b0 * 1024 + b1 * 4) / 4096), b64Char ((b0 * 1024 + b1 * 4) / 64 % 64),
      b64Char ((b0 * 1024 + b1 * 4) % 64), '=']
  | [b0] =>
    [b64Char (b0 * 16 / 64), b64Char (b0 * 16 % 64), '=', '=']
  | [] => []

/-- Base64 decoding of correctly padded input, as Python base64.b64decode;
the spare bits of a padded final group are discarded as binascii does. -/
def b64d : List Char → Option (List Nat)
  | a :: b :: c :: d :: rest =>
    if rest = [] ∧ d = '=' then
      match b64CharVal a, b64CharVal b with
      | some va, some vb =>
        if c = '=' then some [(va * 64 + vb) / 16]
        else
          match b64CharVal c with
          | some vc =>
            some [(va * 4096 + vb * 64 + vc) / 1024, (va * 4096 + vb * 64 + vc) / 4 % 256]
          | none => none
      | _, _ => none
    else
      match b64CharVal a, b64CharVal b, b64CharVal c, b64CharVal d with
      | some va, some vb, some vc, some vd =>
        match b64d rest with
        | some bs =>
          some ((va * 262144 + vb * 4096 + vc * 64 + vd) / 65536 ::
            (va * 262144 + vb * 4096 + vc * 64 + vd) / 256 % 256 ::
            (va * 262144 + vb * 4096 + vc * 64 + vd) % 256 :: bs)
        | none => none
      | _, _, _, _ => none
  | [] => some []
  | _ => none

/-- CompositeKey.encode: json.dumps, UTF-8 encode, base64 encode. -/
def CompositeKey.encode (d : JDict) : Str :=
  b64e (utf8Encode (jsonDumps d))

/-- CompositeKey.decode: base64 decode, UTF-8 decode, json.loads; a failure
of any stage models the exception Python would raise. -/
def CompositeKey.decode (l : Str) : Option JDict :=
  match b64d l with
  | some bytes =>
    match utf8Decode bytes with
    | some chars => jsonLoads chars
    | none => none
  | none => none

/-- Key sequence sorted(self.keys()) used by CompositeKey.__hash__. -/
def CompositeKey.keysSorted (d : JDict) : List Str :=
  sortStrs (d.map Prod.fst)

/-- CompositeKey.__hash__: the hash of the tuple of values indexed by the
sorted keys. -/
def CompositeKey.hashKey (d : JDict) : Nat :=
  tupleHash ((CompositeKey.keysSorted d).map (fun k => (alookup d k).getD .null))

/-- Database rows, as assignments of scalar values to column names. -/
abbrev Row := List (Str × JScalar)

/-- Value of a column in a row; a missing column reads as SQL NULL. -/
def rowGet (r : Row) (c : Str) : JScalar :=
  (alookup r c).getD .null

/-- CompositeKeyField.to_json restricted to the JSON-scalar domain: every
branch of the source that transforms a value concerns dates, times,
timedeltas, decimals, UUIDs or lazy strings, none of which are JSON
scalars, so on this domain the function is the final return-value branch. -/
def CompositeKeyField.toJson (v : JScalar) : JScalar :=
  v

/-- CompositeKeyField.__get__: the dict comprehension mapping each
constituent column to the serialized value the instance holds for it. -/
def CompositeKeyField.instanceKey (columns : List Str) (inst : Row) : JDict :=
  fromPairs (columns.map (fun c => (c, CompositeKeyField.toJson (rowGet inst c))))

/-- Django queryset filter(**kwargs): the rows satisfying every keyword
equality constraint simultaneously. -/
def managerFilter (table : List Row) (kw : JDict) : List Row :=
  table.filter (fun r => kw.all (fun p => decide (rowGet r p.1 = p.2)))

/-- Raw delete of the rows matched by the keyword constraints: the rows that
remain in the table. -/
def rawDeleteRemaining (table : List Row) (kw : JDict) : List Row :=
  table.filter (fun r => !kw.all (fun p => decide (rowGet r p.1 = p.2)))

/-- The delete closure installed by CompositeKeyField.contribute_to_class:
filters the model's table by the instance's composite key dict and performs
a raw delete; the rows returned are those that survive. -/
def compositeDelete (columns : List Str) (table : List Row) (inst : Row) : List Row :=
  rawDeleteRemaining table (CompositeKeyField.instanceKey columns inst)

/-- Exact.as_sql for the composite-key pseudo-field: one exact per-column
lookup for each constituent column against the token's value for that
column, combined with AND.  The result models the children of the WhereNode
built by the source; a missing key in the token models the KeyError Python
would raise on rhs[column]. -/
def exactAsSql (columns : List Str) (rhs : JDict) : Option (List (Str × JScalar)) :=
  columns.mapM (fun c => (alookup rhs c).map (fun v => (c, v)))

/-- Evaluation of an AND-combined list of per-column equality constraints on
a row, the semantics of the WhereNode produced by Exact.as_sql. -/
def evalConj (constraints : List (Str × JScalar)) (r : Row) : Bool :=
  constraints.all (fun p => decide (rowGet r p.1 = p.2))

/-- SQLAlchemy column types occurring as keys of SA_TYPE_TO_MODEL.  The
length of String, Text and Enum and the values of Enum are carried as
attributes. -/
inductive SAType where
  | string (length : Option Nat)
  | text (length : Option Nat)
  | integer
  | bigInteger
  | dateTime
  | date
  | decimal
  | boolean
  | enum (values : List Str) (length : Option Nat)
  | uuid
  | json
  deriving DecidableEq

/-- Django model field classes produced by the synthesizer. -/
inductive FieldClass where
  | charField
  | integerField
  | dateTimeField
  | dateField
  | decimalField
  | booleanField
  | bigIntegerField
  | textField
  | uuidField
  | rawJSONField
  | foreignKey
  | compositeKeyField
  deriving DecidableEq

/-- SA_TYPE_TO_MODEL: the dict keyed by the exact column type class. -/
def saTypeToModel : SAType → FieldClass
  | .string _ => .charField
  | .integer => .integerField
  | .dateTime => .dateTimeField
  | .date => .dateField
  | .decimal => .decimalField
  | .boolean => .booleanField
  | .bigInteger => .bigIntegerField
  | .text _ => .textField
  | .enum _ _ => .charField
  | .uuid => .uuidField
  | .json => .rawJSONField

/-- isinstance(column.type, types.String): in the SQLAlchemy class
hierarchy Text and Enum are subclasses of String. -/
def SAType.isStringInst : SAType → Bool
  | .string _ => true
  | .text _ => true
  | .enum _ _ => true
  | _ => false

/-- isinstance(column.type, types.Enum). -/
def SAType.isEnumInst : SAType → Bool
  | .enum _ _ => true
  | _ => false

/-- The length attribute of a string-like column type. -/
def SAType.lengthAttr : SAType → Option Nat
  | .string l => l
  | .text l => l
  | .enum _ l => l
  | _ => none

/-- The enums attribute of an Enum column type. -/
def SAType.enumValues : SAType → List Str
  | .enum vs _ => vs
  | _ => []

/-- Arguments a SQLAlchemy scalar column default can carry. -/
inductive DefaultArg where
  | scalar (v : JScalar)
  | enumMember (value : Str)
  | callableArg
  deriving DecidableEq

/-- Python truthiness of a JSON scalar. -/
def JScalar.truthy : JScalar → Bool
  | .null => false
  | .b v => v
  | .i v => decide (v ≠ 0)
  | .s v => decide (v ≠ [])

/-- Python truthiness of a default argument; Enum members and callables are
truthy objects. -/
def DefaultArg.truthy : DefaultArg → Bool
  | .scalar v => v.truthy
  | .enumMember _ => true
  | .callableArg => true

/-- Defaults as handed to the Django field constructor. -/
inductive DjDefault where
  | value (v : JScalar)
  | wrappedCallable
  | rawArg (a : DefaultArg)
  deriving DecidableEq

/-- The function _convert_default: None stays None, a falsy argument is
returned unchanged, an Enum member is replaced by its value and a callable
is wrapped with functools.partial. -/
def convertDefault : Option DefaultArg → Option DjDefault
  | none => none
  | some a =>
    if a.truthy then
      match a with
      | .scalar v => some (.value v)
      | .enumMember s => some (.value (.s s))
      | .callableArg => some .wrappedCallable
    else some (.rawArg a)

/-- Reflected SQLAlchemy columns.  Each entry of foreignKeys is the target
column of one ForeignKey of this column, and tableName names the table the
column belongs to.  Cyclic foreign-key chains are not representable, which
matches the scope in which the source's chase loop terminates. -/
inductive SAColumn where
  | mk (name : Str) (ctype : SAType) (nullable : Bool) (primaryKey : Bool)
       (defaultArg : Option DefaultArg) (foreignKeys : List SAColumn)
       (tableName : Str)

/-- Name attribute of a column. -/
def SAColumn.name : SAColumn → Str
  | .mk n _ _ _ _ _ _ => n

/-- Type attribute of a column. -/
def SAColumn.ctype : SAColumn → SAType
  | .mk _ t _ _ _ _ _ => t

/-- Nullable attribute of a column. -/
def SAColumn.nullable : SAColumn → Bool
  | .mk _ _ nl _ _ _ _ => nl

/-- Primary-key attribute of a column. -/
def SAColumn.primaryKey : SAColumn → Bool
  | .mk _ _ _ pk _ _ _ => pk

/-- Default attribute of a column. -/
def SAColumn.defaultArg : SAColumn → Option DefaultArg
  | .mk _ _ _ _ d _ _ => d

/-- Foreign-key targets of a column. -/
def SAColumn.foreignKeys : SAColumn → List SAColumn
  | .mk _ _ _ _ _ fks _ => fks

/-- Name of the table a column belongs to. -/
def SAColumn.tableName : SAColumn → Str
  | .mk _ _ _ _ _ _ tb => tb

/-- The while loop of _column_as_field following the first foreign key of
each column until a column without foreign keys is reached. -/
def chaseFk : SAColumn → SAColumn
  | .mk n t nl pk d [] tb => .mk n t nl pk d [] tb
  | .mk _ _ _ _ _ (f :: _) _ => chaseFk f

/-- Python str.endswith for the specific suffix used by foreign-key column
names. -/
def endsWithUid (s : Str) : Bool :=
  match s.reverse with
  | c1 :: c2 :: c3 :: _ => decide (c1 = 'd' ∧ c2 = 'i' ∧ c3 = '_')
  | _ => false

/-- Python slicing name[:-3]. -/
def dropLast3 (s : Str) : Str :=
  s.take (s.length - 3)

/-- Python str.capitalize: first character upper-cased, the rest
lower-cased (ASCII case mapping, which covers reflected table names). -/
def pyCapitalize : Str → Str
  | [] => []
  | c :: rest => c.toUpper :: rest.map Char.toLower

/-- Python str.split on the underscore separator. -/
def splitUnderscore : Str → List Str
  | [] => [[]]
  | c :: rest =>
    if c = '_' then [] :: splitUnderscore rest
    else
      match splitUnderscore rest with
      | g :: gs => (c :: g) :: gs
      | [] => [[c]]

/-- The function _generate_model_name: capitalize each underscore-separated
part of the table name and join them. -/
def generateModelName (tableName : Str) : Str :=
  ((splitUnderscore tableName).map pyCapitalize).foldr (fun a b => a ++ b) []

/-- Keyword arguments collected by _column_as_field on their way into the
Django field constructor. -/
structure DjField where
  fieldClass : FieldClass
  null : Bool := false
  defaultv : Option DjDefault := none
  primaryKey : Bool := false
  editable : Bool := true
  blank : Bool := false
  maxLength : Option Nat := none
  choices : Option (List (Str × Str)) := none
  relTo : Option Str := none
  onDeleteProtect : Bool := false
  toField : Option Str := none
  dbColumn : Option Str := none
  ckColumns : Option (List Str) := none
  deriving DecidableEq

/-- The function _column_as_field: maps a reflected column to an attribute
name and a Django field.  The flag isPkColumn models the identity test
column is pk_column of the source. -/
def columnAsField (column : SAColumn) (isPkColumn : Bool) : Str × DjField :=
  let name := column.name
  let primary := column.primaryKey || isPkColumn
  let base : DjField :=
    { fieldClass := saTypeToModel column.ctype
      null := column.nullable
      defaultv := convertDefault column.defaultArg
      primaryKey := primary
      editable := !primary
      blank := column.nullable }
  let base :=
    if column.ctype.isEnumInst then
      { base with choices := some (column.ctype.enumValues.map (fun i => (i, i))) }
    else base
  let base :=
    if column.ctype.isStringInst then
      match column.ctype.lengthAttr with
      | some (n + 1) => { base with maxLength := some (n + 1) }
      | _ => { base with fieldClass := .textField }
    else base
  match column.foreignKeys with
  | [] => (name, base)
  | _ :: _ =>
    let target := chaseFk column
    let newName := if endsWithUid name then dropLast3 name else name ++ "_obj".toList
    (newName,
      { base with
          fieldClass := .foreignKey
          relTo := some ("sqlalchemy_django_admin.".toList ++ generateModelName target.tableName)
          onDeleteProtect := true
          toField := some target.name
          dbColumn := some column.name })

/-- Python exceptions raised by the embedded code paths. -/
inductive PyErr where
  | attributeError
  | typeError
  deriving DecidableEq

/-- Decidable equality of embedded fallible results. -/
instance {ε α : Type} [DecidableEq ε] [DecidableEq α] : DecidableEq (Except ε α) := by
  intro a b
  cases a <;> cases b
  case error.error e1 e2 =>
    exact if h : e1 = e2 then isTrue (by rw [h]) else isFalse (by intro hc; cases hc; exact h rfl)
  case error.ok e1 v2 => exact isFalse (by intro hc; cases hc)
  case ok.error v1 e2 => exact isFalse (by intro hc; cases hc)
  case ok.ok v1 v2 =>
    exact if h : v1 = v2 then isTrue (by rw [h]) else isFalse (by intro hc; cases hc; exact h rfl)

/-- Objects that table_as_model passes to CompositeKeyField.__init__: the
constructor's signature expects Django fields, the caller supplies plain
strings. -/
inductive CKFieldArg where
  | fieldObj (name : Str) (f : DjField)
  | strObj (s : Str)
  deriving DecidableEq

/-- Attribute access arg.db_column: a Python str has no such attribute. -/
def CKFieldArg.dbColumnAttr : CKFieldArg → Except PyErr (Option Str)
  | .fieldObj _ f => .ok f.dbColumn
  | .strObj _ => .error .attributeError

/-- Attribute access arg.name: a Python str has no such attribute. -/
def CKFieldArg.nameAttr : CKFieldArg → Except PyErr Str
  | .fieldObj n _ => .ok n
  | .strObj _ => .error .attributeError

/-- One step of the comprehension in CompositeKeyField.__init__:
field.db_column or field.name, with Python or-truthiness on the empty
string. -/
def ckArgColumn (a : CKFieldArg) : Except PyErr Str :=
  match a.dbColumnAttr with
  | .error e => .error e
  | .ok odbc =>
    match odbc with
    | some s => if s = [] then a.nameAttr else .ok s
    | none => a.nameAttr

/-- CompositeKeyField.__init__: stores the constituent columns computed from
the field arguments and constructs a primary-key field. -/
def compositeKeyFieldInit (fieldArgs : List CKFieldArg) : Except PyErr DjField :=
  match fieldArgs.mapM ckArgColumn with
  | .error e => .error e
  | .ok cols =>
    .ok { fieldClass := .compositeKeyField, primaryKey := true, ckColumns := some cols }

/-- Reflected SQLAlchemy tables. -/
structure SATable where
  name : Str
  columns : List SAColumn

/-- The function table_as_model restricted to its field attributes: builds
the attrs dict from the columns, and when more than one field is primary,
clears each constituent's primary_key flag, collects the constituents'
storage column names and installs a CompositeKeyField under the id key.
The pk_column parameter is modelled by its index in the column list, which
captures the identity comparison column is pk_column. -/
def tableAsModel (table : SATable) (pkIndex : Option Nat) : Except PyErr (List (Str × DjField)) :=
  let attrs := fromPairs (table.columns.enum.map
    (fun p => columnAsField p.2 (decide (pkIndex = some p.1))))
  let primaryFields := attrs.filter (fun p => p.2.primaryKey)
  if primaryFields.length > 1 then
    let attrs2 := attrs.map
      (fun p => if p.2.primaryKey then (p.1, { p.2 with primaryKey := false }) else p)
    let primaryColumns := primaryFields.map (fun p =>
      match p.2.dbColumn with
      | some s => if s = [] then p.1 else s
      | none => p.1)
    match compositeKeyFieldInit (primaryColumns.map CKFieldArg.strObj) with
    | .error e => .error e
    | .ok ck => .ok (dictInsert attrs2 "id".toList ck)
  else .ok attrs

/-- Count of attributes carrying the primary-key flag. -/
def primaryAttrCount (attrs : List (Str × DjField)) : Nat :=
  (attrs.filter (fun p => p.2.primaryKey)).length

/-- Concrete Django model fields as seen by the admin option overrides. -/
structure AdminField where
  name : Str
  dbColumn : Option Str
  isRelation : Bool
  concrete : Bool
  deriving DecidableEq

/-- The property _model_fields: the concrete fields of the model. -/
def modelFieldsConcrete (fields : List AdminField) : List AdminField :=
  fields.filter (fun f => f.concrete)

/-- Django's default list_display value. -/
def defaultListDisplay : List Str :=
  ["__str__".toList]

/-- ModelAdmin.get_list_display: with the default configuration, the first
four concrete fields, each relation replaced by its underlying database
column name (None when it has none, as in Python); otherwise the configured
list, as super() returns it. -/
def getListDisplay (listDisplay : List Str) (fields : List AdminField) : List (Option Str) :=
  if listDisplay = defaultListDisplay then
    ((modelFieldsConcrete fields).take 4).map
      (fun f => if f.isRelation then f.dbColumn else some f.name)
  else listDisplay.map some

/-- Values a database driver can hand to from_db_value for a JSON column:
NULL, a JSON text, or an already-decoded non-string object. -/
inductive DbValue where
  | nullv
  | strv (s : Str)
  | pyObj (d : JDict)
  deriving DecidableEq

/-- Django models.JSONField.from_db_value (host framework, Django 3.1+):
None passes through, a string is parsed with json.loads catching
json.JSONDecodeError by returning the raw value, and a non-string object
makes json.loads raise TypeError, which this base method does not catch. -/
def jsonFieldFromDbValue (v : DbValue) : Except PyErr DbValue :=
  match v with
  | .nullv => .ok .nullv
  | .strv s =>
    match jsonLoads s with
    | some d => .ok (.pyObj d)
    | none => .ok (.strv s)
  | .pyObj _ => .error .typeError

/-- RawJSONField.from_db_value: delegates to the base implementation and
returns the raw value when that raises TypeError. -/
def rawJSONFieldFromDbValue (v : DbValue) : Except PyErr DbValue :=
  match jsonFieldFromDbValue v with
  | .error .typeError => .ok v
  | r => r

/-- RawJSONField.db_type: the json (not jsonb) column type. -/
def RawJSONField.dbType : Str :=
  "json".toList

/-- Test of whether the underlying json.loads decoding of a database value
fails: a non-string object raises TypeError, a string can fail to parse;
for NULL no decoding is attempted. -/
def jsonDecodeFails (v : DbValue) : Bool :=
  match v with
  | .nullv => false
  | .strv s => (jsonLoads s).isNone
  | .pyObj _ => true

/-- Characters with equal code points are equal. -/
theorem char_toNat_inj {a b : Char} (h : a.toNat = b.toNat) : a = b := by
  have ha := Char.ofNat_toNat a
  have hb := Char.ofNat_toNat b
  rw [← ha, ← hb, h]

/-- A successful lookup names an item of the list. -/
theorem alookup_eq_some_mem {α : Type} {d : List (Str × α)} {k : Str} {v : α}
    (h : alookup d k = some v) : (k, v) ∈ d := by
  induction d with
  | nil => simp [alookup] at h
  | cons p rest ih =>
    obtain ⟨p1, p2⟩ := p
    by_cases hk : p1 = k
    · simp [alookup, hk] at h
      exact List.mem_cons.mpr (Or.inl (by rw [hk, h]))
    · simp only [alookup] at h
      rw [if_neg hk] at h
      exact List.mem_cons.mpr (Or.inr (ih h))

/-- A lookup fails exactly when the key is absent. -/
theorem alookup_eq_none_iff {α : Type} {d : List (Str × α)} {k : Str} :
    alookup d k = none ↔ k ∉ d.map Prod.fst := by
  induction d with
  | nil => simp [alookup]
  | cons p rest ih =>
    by_cases hk : p.1 = k
    · simp only [alookup]
      rw [if_pos hk]
      simp only [List.map_cons, List.mem_cons]
      constructor
      · intro h
        cases h
      · intro h
        exact absurd (Or.inl hk.symm) h
    · simp only [alookup]
      rw [if_neg hk]
      simp only [List.map_cons, List.mem_cons, ih]
      constructor
      · intro h hc
        rcases hc with hc | hc
        · exact hk hc.symm
        · exact h hc
      · intro h hc
        exact h (Or.inr hc)

/-- With distinct keys, each item is found by looking its key up. -/
theorem alookup_of_mem_nodup {α : Type} {d : List (Str × α)} {k : Str} {v : α}
    (hn : (d.map Prod.fst).Nodup) (hm : (k, v) ∈ d) : alookup d k = some v := by
  induction d with
  | nil => simp at hm
  | cons p rest ih =>
    simp only [List.map_cons, List.nodup_cons] at hn
    rcases List.mem_cons.mp hm with h | h
    · rw [← h]
      simp [alookup]
    · have hk : p.1 ≠ k := by
        intro hkk
        exact hn.1 (hkk ▸ (List.mem_map.mpr ⟨(k, v), h, rfl⟩))
      simp only [alookup]
      rw [if_neg hk]
      exact ih hn.2 h

/-- Lookups agree across a permutation of a list with distinct keys. -/
theorem alookup_perm {α : Type} {l1 l2 : List (Str × α)}
    (hn : (l1.map Prod.fst).Nodup) (hp : l1.Perm l2) (k : Str) :
    alookup l1 k = alookup l2 k := by
  have hn2 : (l2.map Prod.fst).Nodup := ((hp.map Prod.fst).nodup_iff).mp hn
  cases h : alookup l1 k with
  | some v =>
    exact (alookup_of_mem_nodup hn2 (hp.mem_iff.mp (alookup_eq_some_mem h))).symm
  | none =>
    cases h2 : alookup l2 k with
    | none => rfl
    | some v =>
      exact absurd (hp.mem_iff.mpr (alookup_eq_some_mem h2))
        (fun hm => (alookup_eq_none_iff.mp h) (List.mem_map.mpr ⟨(k, v), hm, rfl⟩))

/-- Inserting a fresh key appends the pair. -/
theorem dictInsert_fresh {α : Type} {d : List (Str × α)} {k : Str} (v : α)
    (h : k ∉ d.map Prod.fst) : dictInsert d k v = d ++ [(k, v)] := by
  have hc : containsKey d k = false := by
    unfold containsKey
    cases hl : alookup d k with
    | none => rfl
    | some w => exact absurd (List.mem_map.mpr ⟨(k, w), alookup_eq_some_mem hl, rfl⟩) h
  simp [dictInsert, hc]

/-- Folding dict insertion over pairs whose keys are fresh and distinct
appends them in order. -/
theorem fromPairs_go {α : Type} :
    ∀ (ps acc : List (Str × α)), (acc.map Prod.fst ++ ps.map Prod.fst).Nodup →
      ps.foldl (fun d p => dictInsert d p.1 p.2) acc = acc ++ ps := by
  intro ps
  induction ps with
  | nil =>
    intro acc _
    simp
  | cons p rest ih =>
    intro acc hacc
    have hsplit := List.nodup_append.mp hacc
    have hfresh : p.1 ∉ acc.map Prod.fst := by
      intro hmem
      exact hsplit.2.2 hmem
        (by simp only [List.map_cons]; exact List.mem_cons_self _ _)
    simp only [List.foldl_cons]
    rw [dictInsert_fresh p.2 hfresh]
    have hihkeys : ((acc ++ [(p.1, p.2)]).map Prod.fst ++ rest.map Prod.fst).Nodup := by
      simp only [List.map_append, List.map_cons, List.map_nil, List.append_assoc,
        List.singleton_append]
      simpa using hacc
    rw [ih (acc ++ [(p.1, p.2)]) hihkeys]
    simp

/-- Building a dict from pairs with distinct keys reproduces the pairs. -/
theorem fromPairs_eq_self {α : Type} {ps : List (Str × α)}
    (hn : (ps.map Prod.fst).Nodup) : fromPairs ps = ps := by
  have := fromPairs_go ps [] (by simpa using hn)
  simpa [fromPairs] using this

/-- Totality of the code-point order. -/
theorem strLeb_total : ∀ a b : Str, strLeb a b = true ∨ strLeb b a = true := by
  intro a
  induction a with
  | nil =>
    intro b
    left
    rfl
  | cons x xs ih =>
    intro b
    cases b with
    | nil =>
      right
      rfl
    | cons y ys =>
      simp only [strLeb]
      by_cases h1 : x.toNat < y.toNat
      · left
        rw [if_pos h1]
      · by_cases h2 : y.toNat < x.toNat
        · right
          rw [if_pos h2]
        · rw [if_neg h1, if_neg h2, if_neg h2, if_neg h1]
          exact ih ys

/-- Antisymmetry of the code-point order. -/
theorem strLeb_antisymm : ∀ a b : Str, strLeb a b = true → strLeb b a = true → a = b := by
  intro a
  induction a with
  | nil =>
    intro b _ hba
    cases b with
    | nil => rfl
    | cons y ys => simp [strLeb] at hba
  | cons x xs ih =>
    intro b hab hba
    cases b with
    | nil => simp [strLeb] at hab
    | cons y ys =>
      simp only [strLeb] at hab hba
      by_cases h1 : x.toNat < y.toNat
      · rw [if_neg (by omega), if_pos h1] at hba
        cases hba
      · by_cases h2 : y.toNat < x.toNat
        · rw [if_neg h1, if_pos h2] at hab
          cases hab
        · rw [if_neg h1, if_neg h2] at hab
          rw [if_neg h2, if_neg h1] at hba
          rw [char_toNat_inj (by omega : x.toNat = y.toNat), ih ys hab hba]

/-- Transitivity of the code-point order. -/
theorem strLeb_trans : ∀ a b c : Str, strLeb a b = true → strLeb b c = true →
    strLeb a c = true := by
  intro a
  induction a with
  | nil =>
    intro b c _ _
    rfl
  | cons x xs ih =>
    intro b c hab hbc
    cases b with
    | nil => simp [strLeb] at hab
    | cons y ys =>
      cases c with
      | nil => simp [strLeb] at hbc
      | cons z zs =>
        simp only [strLeb] at hab hbc ⊢
        by_cases h1 : x.toNat < y.toNat
        · by_cases h2 : y.toNat < z.toNat
          · rw [if_pos (by omega)]
          · rw [if_neg h2] at hbc
            by_cases h3 : z.toNat < y.toNat
            · rw [if_pos h3] at hbc
              cases hbc
            · rw [if_pos (by omega)]
        · rw [if_neg h1] at hab
          by_cases h1b : y.toNat < x.toNat
          · rw [if_pos h1b] at hab
            cases hab
          · rw [if_neg h1b] at hab
            by_cases h2 : y.toNat < z.toNat
            · rw [if_pos (by omega)]
            · rw [if_neg h2] at hbc
              by_cases h3 : z.toNat < y.toNat
              · rw [if_pos h3] at hbc
                cases hbc
              · rw [if_neg h3] at hbc
                rw [if_neg (by omega), if_neg (by omega)]
                exact ih ys zs hab hbc

/-- Inserting into a list permutes consing. -/
theorem insortStr_perm (x : Str) (l : List Str) : (insortStr x l).Perm (x :: l) := by
  induction l with
  | nil => exact List.Perm.refl _
  | cons y ys ih =>
    simp only [insortStr]
    by_cases h : strLeb x y = true
    · rw [if_pos h]
    · rw [if_neg h]
      exact (ih.cons y).trans (List.Perm.swap x y ys)

/-- Sorting permutes the input. -/
theorem sortStrs_perm (l : List Str) : (sortStrs l).Perm l := by
  induction l with
  | nil => exact List.Perm.refl _
  | cons x xs ih =>
    exact (insortStr_perm x (sortStrs xs)).trans (ih.cons x)

/-- Insertion preserves sortedness. -/
theorem insortStr_sorted (x : Str) {l : List Str}
    (h : List.Sorted (fun a b => strLeb a b = true) l) :
    List.Sorted (fun a b => strLeb a b = true) (insortStr x l) := by
  induction l with
  | nil =>
    simp only [insortStr]
    exact List.sorted_singleton _
  | cons y ys ih =>
    have hy := (List.sorted_cons.mp h).1
    have hys := (List.sorted_cons.mp h).2
    simp only [insortStr]
    by_cases hxy : strLeb x y = true
    · rw [if_pos hxy]
      refine List.sorted_cons.mpr ⟨?_, h⟩
      intro b hb
      rcases List.mem_cons.mp hb with hb | hb
      · rw [hb]
        exact hxy
      · exact strLeb_trans x y b hxy (hy b hb)
    · rw [if_neg hxy]
      refine List.sorted_cons.mpr ⟨?_, ih hys⟩
      intro b hb
      rcases List.mem_cons.mp ((insortStr_perm x ys).mem_iff.mp hb) with hb2 | hb2
      · rw [hb2]
        rcases strLeb_total y x with ht | ht
        · exact ht
        · exact absurd ht hxy
      · exact hy b hb2

/-- The result of sorting is sorted. -/
theorem sortStrs_sorted (l : List Str) :
    List.Sorted (fun a b => strLeb a b = true) (sortStrs l) := by
  induction l with
  | nil => exact List.sorted_nil
  | cons x xs ih => exact insortStr_sorted x ih

/-- Sorting is determined by the multiset of elements. -/
theorem sortStrs_eq_of_perm {l1 l2 : List Str} (hp : l1.Perm l2) :
    sortStrs l1 = sortStrs l2 :=
  @List.eq_of_perm_of_sorted _ _ ⟨fun a b h1 h2 => strLeb_antisymm a b h1 h2⟩ _ _
    ((sortStrs_perm l1).trans (hp.trans (sortStrs_perm l2).symm))
    (sortStrs_sorted l1) (sortStrs_sorted l2)

/-- C2: two CompositeKey tokens built from the same set of column/value
pairs, in any insertion order, are equal as Python dicts and receive the
same hash from CompositeKey.__hash__. -/
theorem compositeKey_insertion_order_invariant (l1 l2 : List (Str × JScalar))
    (hn : (l1.map Prod.fst).Nodup) (hp : l1.Perm l2) :
    dictBeq (fromPairs l1) (fromPairs l2) = true ∧
    CompositeKey.hashKey (fromPairs l1) = CompositeKey.hashKey (fromPairs l2) := by
  have hn2 : (l2.map Prod.fst).Nodup := ((hp.map Prod.fst).nodup_iff).mp hn
  rw [fromPairs_eq_self hn, fromPairs_eq_self hn2]
  constructor
  · unfold dictBeq
    refine (Bool.and_eq_true _ _).mpr ⟨?_, ?_⟩
    · simp [hp.length_eq]
    · refine List.all_eq_true.mpr ?_
      intro p hpmem
      refine decide_eq_true ?_
      have : (p.1, p.2) ∈ l2 := by
        rw [Prod.mk.eta]
        exact hp.mem_iff.mp hpmem
      exact alookup_of_mem_nodup hn2 this
  · unfold CompositeKey.hashKey CompositeKey.keysSorted
    rw [sortStrs_eq_of_perm (hp.map Prod.fst)]
    have hfun : (fun k => (alookup l1 k).getD JScalar.null) =
        (fun k => (alookup l2 k).getD JScalar.null) :=
      funext (fun k => by rw [alookup_perm hn hp k])
    rw [hfun]

/-- Witness for C2 at a concrete two-column key in both insertion orders. -/
theorem compositeKey_insertion_order_invariant_witness :
    dictBeq (fromPairs [(['a'], JScalar.i 1), (['b'], JScalar.s ['x'])])
        (fromPairs [(['b'], JScalar.s ['x']), (['a'], JScalar.i 1)]) = true ∧
    CompositeKey.hashKey (fromPairs [(['a'], JScalar.i 1), (['b'], JScalar.s ['x'])]) =
      CompositeKey.hashKey (fromPairs [(['b'], JScalar.s ['x']), (['a'], JScalar.i 1)]) :=
  compositeKey_insertion_order_invariant
    [(['a'], JScalar.i 1), (['b'], JScalar.s ['x'])]
    [(['b'], JScalar.s ['x']), (['a'], JScalar.i 1)]
    (by decide) (List.Perm.swap (['b'], JScalar.s ['x']) (['a'], JScalar.i 1) [])


/-- A hexadecimal digit decodes back to its value. -/
theorem fromHexDigit_hexDigitChar {m : Nat} (h : m < 16) :
    fromHexDigit (hexDigitChar m) = some m := by
  interval_cases m <;> rfl

/-- Code points below the astral plane survive the hex4 round trip. -/
theorem fromHex4_toHex4 {n : Nat} (h : n < 65536) :
    fromHex4 (hexDigitChar (n / 4096 % 16)) (hexDigitChar (n / 256 % 16))
      (hexDigitChar (n / 16 % 16)) (hexDigitChar (n % 16)) = some n := by
  unfold fromHex4
  rw [fromHexDigit_hexDigitChar (Nat.mod_lt _ (by omega)),
    fromHexDigit_hexDigitChar (Nat.mod_lt _ (by omega)),
    fromHexDigit_hexDigitChar (Nat.mod_lt _ (by omega)),
    fromHexDigit_hexDigitChar (Nat.mod_lt _ (by omega))]
  exact congrArg some (by omega)

/-- Every code point is below the Unicode bound. -/
theorem char_toNat_lt (c : Char) : c.toNat < 1114112 := by
  have he : c.toNat = c.val.toNat := rfl
  rcases c.valid with h | h
  · omega
  · omega

/-- No code point is a surrogate. -/
theorem char_not_surrogate (c : Char) : c.toNat < 55296 ∨ 57343 < c.toNat := by
  have he : c.toNat = c.val.toNat := rfl
  rcases c.valid with h | h
  · left
    omega
  · right
    omega

/-- A \uXXXX escape outside the surrogate range decodes to its code point. -/
theorem parseEsc_u {h1 h2 h3 h4 : Char} {n : Nat} (l : Str)
    (hfh : fromHex4 h1 h2 h3 h4 = some n)
    (hlo : ¬(55296 ≤ n ∧ n < 56320)) (hhi : ¬(56320 ≤ n ∧ n < 57344)) :
    parseEsc ('u' :: h1 :: h2 :: h3 :: h4 :: l) = some (Char.ofNat n, l) := by
  rw [parseEsc]
  rw [if_pos (by rfl)]
  split
  next heq => rw [hfh] at heq; cases heq
  next m heq =>
    rw [hfh] at heq
    cases heq
    rw [if_neg hlo, if_neg hhi]

/-- A surrogate-pair escape decodes to the combined astral code point. -/
theorem parseEsc_u_pair {h1 h2 h3 h4 g1 g2 g3 g4 : Char} {n m : Nat} (l : Str)
    (hfn : fromHex4 h1 h2 h3 h4 = some n) (hfm : fromHex4 g1 g2 g3 g4 = some m)
    (hn1 : 55296 ≤ n) (hn2 : n < 56320) (hm1 : 56320 ≤ m) (hm2 : m < 57344) :
    parseEsc ('u' :: h1 :: h2 :: h3 :: h4 :: '\\' :: 'u' :: g1 :: g2 :: g3 :: g4 :: l) =
      some (Char.ofNat (65536 + (n - 55296) * 1024 + (m - 56320)), l) := by
  rw [parseEsc]
  rw [if_pos (by rfl)]
  split
  next heq => rw [hfn] at heq; cases heq
  next n2 heq =>
    rw [hfn] at heq
    cases heq
    rw [if_pos ⟨hn1, hn2⟩]
    rw [show parseLowSurrogate ('\\' :: 'u' :: g1 :: g2 :: g3 :: g4 :: l) = some (m, l) by
      rw [parseLowSurrogate]
      rw [if_pos ⟨rfl, rfl⟩]
      split
      next heq2 => rw [hfm] at heq2; cases heq2
      next m2 heq2 =>
        rw [hfm] at heq2
        cases heq2
        rw [if_pos ⟨hm1, hm2⟩]]

/-- Parsing one step after a backslash with a decodable escape. -/
theorem parseStrBodyF_backslash (rest : Str) (ch : Char) (r2 : Str) (fuel : Nat)
    (h : parseEsc rest = some (ch, r2)) :
    parseStrBodyF (fuel + 1) ('\\' :: rest) =
      (parseStrBodyF fuel r2).map (fun q => (ch :: q.1, q.2)) := by
  rw [parseStrBodyF]
  rw [if_neg (by decide), if_pos (by rfl), h]

/-- Parsing one unescaped printable character keeps it. -/
theorem parseStrBodyF_lit {c : Char} (fuel : Nat) (l : Str) (h1 : ¬c = '"')
    (h2 : ¬c = '\\') (h3 : ¬c.toNat < 32) :
    parseStrBodyF (fuel + 1) (c :: l) =
      (parseStrBodyF fuel l).map (fun q => (c :: q.1, q.2)) := by
  rw [parseStrBodyF]
  rw [if_neg h1, if_neg h2, if_neg h3]

/-- One escaped character parses back to itself in front of any suffix. -/
theorem parseStrBodyF_escChar (c : Char) (fuel : Nat) (l : Str) :
    parseStrBodyF (fuel + 1) (escChar c ++ l) =
      (parseStrBodyF fuel l).map (fun q => (c :: q.1, q.2)) := by
  unfold escChar
  by_cases h1 : c = '"'
  · rw [if_pos h1, h1]
    exact parseStrBodyF_backslash _ _ _ fuel rfl
  · rw [if_neg h1]
    by_cases h2 : c = '\\'
    · rw [if_pos h2, h2]
      exact parseStrBodyF_backslash _ _ _ fuel rfl
    · rw [if_neg h2]
      by_cases h3 : 32 ≤ c.toNat ∧ c.toNat ≤ 126
      · rw [if_pos h3]
        exact parseStrBodyF_lit fuel l h1 h2 (by omega)
      · rw [if_neg h3]
        by_cases h4 : c = '\x08'
        · rw [if_pos h4, h4]
          exact parseStrBodyF_backslash _ _ _ fuel rfl
        · rw [if_neg h4]
          by_cases h5 : c = '\x0C'
          · rw [if_pos h5, h5]
            exact parseStrBodyF_backslash _ _ _ fuel rfl
          · rw [if_neg h5]
            by_cases h6 : c = '\n'
            · rw [if_pos h6, h6]
              exact parseStrBodyF_backslash _ _ _ fuel rfl
            · rw [if_neg h6]
              by_cases h7 : c = '\r'
              · rw [if_pos h7, h7]
                exact parseStrBodyF_backslash _ _ _ fuel rfl
              · rw [if_neg h7]
                by_cases h8 : c = '\t'
                · rw [if_pos h8, h8]
                  exact parseStrBodyF_backslash _ _ _ fuel rfl
                · rw [if_neg h8]
                  by_cases h9 : c.toNat < 65536
                  · rw [if_pos h9]
                    have hsur := char_not_surrogate c
                    unfold toHex4
                    simp only [List.cons_append, List.nil_append]
                    rw [parseStrBodyF_backslash _ _ _ fuel
                      (parseEsc_u l (fromHex4_toHex4 h9) (by omega) (by omega))]
                    rw [Char.ofNat_toNat]
                  · rw [if_neg h9]
                    have hlt := char_toNat_lt c
                    unfold toHex4
                    simp only [List.append_assoc, List.cons_append, List.nil_append]
                    rw [parseStrBodyF_backslash _ _ _ fuel
                      (parseEsc_u_pair l
                        (fromHex4_toHex4 (by omega))
                        (fromHex4_toHex4 (by omega))
                        (by omega) (by omega) (by omega) (by omega))]
                    have harith : 65536 + (55296 + (c.toNat - 65536) / 1024 - 55296) * 1024 +
                        (56320 + (c.toNat - 65536) % 1024 - 56320) = c.toNat := by
                      omega
                    rw [harith, Char.ofNat_toNat]

/-- Serialization never shrinks a string. -/
theorem serStrBody_length (s : Str) : s.length ≤ (serStrBody s).length := by
  induction s with
  | nil => simp [serStrBody]
  | cons c cs ih =>
    have hpos : 0 < (escChar c).length := by
      unfold escChar
      simp only [apply_ite List.length, List.length_cons, List.length_nil,
        List.length_append]
      repeat' split
      all_goals omega
    simp only [serStrBody, List.length_append, List.length_cons]
    omega

/-- A serialized string body followed by the closing quote parses back to
the string, given fuel above the string length. -/
theorem parseStrBodyF_ser (s : Str) : ∀ (fuel : Nat) (l : Str), s.length < fuel →
    parseStrBodyF fuel (serStrBody s ++ ('"' :: l)) = some (s, l) := by
  induction s with
  | nil =>
    intro fuel l hf
    match fuel, hf with
    | f + 1, _ => rfl
  | cons c cs ih =>
    intro fuel l hf
    match fuel, hf with
    | f + 1, hf =>
      simp only [serStrBody, List.append_assoc]
      rw [parseStrBodyF_escChar c f (serStrBody cs ++ ('"' :: l))]
      rw [ih f l (by simp at hf; omega)]
      rfl

/-- A serialized string body followed by the closing quote parses back to
the string. -/
theorem parseStrBody_ser (s : Str) (l : Str) :
    parseStrBody (serStrBody s ++ ('"' :: l)) = some (s, l) := by
  unfold parseStrBody
  refine parseStrBodyF_ser s _ l ?_
  have := serStrBody_length s
  simp only [List.length_append, List.length_cons]
  omega

/-- The digit rendering is independent of the fuel above the number. -/
theorem natDigitsAux_fuel (n : Nat) : ∀ f1 f2 : Nat, n < f1 → n < f2 →
    natDigitsAux f1 n = natDigitsAux f2 n := by
  induction n using Nat.strong_induction_on with
  | _ n ih =>
    intro f1 f2 h1 h2
    match f1, h1, f2, h2 with
    | a + 1, h1, b + 1, h2 =>
      simp only [natDigitsAux]
      by_cases h10 : n < 10
      · rw [if_pos h10, if_pos h10]
      · rw [if_neg h10, if_neg h10]
        have hdiv : n / 10 < n := Nat.div_lt_self (by omega) (by omega)
        rw [ih (n / 10) hdiv a b (by omega) (by omega)]

/-- Unfolding step of the decimal rendering. -/
theorem natDigits_step (n : Nat) : natDigits n =
    if n < 10 then [hexDigitChar n]
    else natDigits (n / 10) ++ [hexDigitChar (n % 10)] := by
  unfold natDigits
  rw [show natDigitsAux (n + 1) n =
      (if n < 10 then [hexDigitChar n]
       else natDigitsAux n (n / 10) ++ [hexDigitChar (n % 10)]) from rfl]
  by_cases h10 : n < 10
  · rw [if_pos h10, if_pos h10]
  · rw [if_neg h10, if_neg h10]
    have hdiv : n / 10 < n := Nat.div_lt_self (by omega) (by omega)
    rw [natDigitsAux_fuel (n / 10) n (n / 10 + 1) (by omega) (by omega)]

/-- The decimal rendering is never empty. -/
theorem natDigits_ne_nil (n : Nat) : natDigits n ≠ [] := by
  rw [natDigits_step]
  by_cases h10 : n < 10
  · rw [if_pos h10]
    simp
  · rw [if_neg h10]
    simp

/-- Decimal digit characters pass the digit test. -/
theorem isDigitCh_hexDigitChar {m : Nat} (h : m < 10) :
    isDigitCh (hexDigitChar m) = true := by
  interval_cases m <;> rfl

/-- Decimal digit characters carry their value. -/
theorem digitVal_hexDigitChar {m : Nat} (h : m < 10) :
    digitVal (hexDigitChar m) = m := by
  interval_cases m <;> rfl

/-- Every character of a decimal rendering is a digit. -/
theorem natDigits_all_digits (n : Nat) : ∀ c ∈ natDigits n, isDigitCh c = true := by
  induction n using Nat.strong_induction_on with
  | _ n ih =>
    rw [natDigits_step]
    by_cases h10 : n < 10
    · rw [if_pos h10]
      intro c hc
      rcases List.mem_singleton.mp hc with rfl
      exact isDigitCh_hexDigitChar h10
    · rw [if_neg h10]
      intro c hc
      rcases List.mem_append.mp hc with hc | hc
      · exact ih (n / 10) (Nat.div_lt_self (by omega) (by omega)) c hc
      · rcases List.mem_singleton.mp hc with rfl
        exact isDigitCh_hexDigitChar (Nat.mod_lt _ (by omega))

/-- A nonzero number's rendering starts with a nonzero digit. -/
theorem natDigits_head_nz (n : Nat) (hn : n ≠ 0) :
    ∃ c cs, natDigits n = c :: cs ∧ ¬c = '0' := by
  induction n using Nat.strong_induction_on with
  | _ n ih =>
    rw [natDigits_step]
    by_cases h10 : n < 10
    · rw [if_pos h10]
      refine ⟨hexDigitChar n, [], rfl, ?_⟩
      interval_cases n
      · exact absurd rfl hn
      all_goals decide
    · rw [if_neg h10]
      obtain ⟨c, cs, hcons, hcz⟩ := ih (n / 10) (Nat.div_lt_self (by omega) (by omega))
        (by omega)
      exact ⟨c, cs ++ [hexDigitChar (n % 10)], by rw [hcons]; rfl, hcz⟩

/-- Scanning a digit extends the accumulator. -/
theorem parseDigitsAux_digit (acc : Nat) {c : Char} (l : Str) (h : isDigitCh c = true) :
    parseDigitsAux acc (c :: l) = parseDigitsAux (acc * 10 + digitVal c) l := by
  simp only [parseDigitsAux]
  rw [if_pos h]

/-- Scanning stops at a non-digit boundary. -/
theorem parseDigitsAux_stop (acc : Nat) {l : Str}
    (h : ∀ c cs, l = c :: cs → isDigitCh c = false) : parseDigitsAux acc l = (acc, l) := by
  cases l with
  | nil => rfl
  | cons c cs =>
    simp only [parseDigitsAux]
    rw [if_neg (by rw [h c cs rfl]; exact Bool.false_ne_true)]

/-- Scanning the rendering of a number shifts it into the accumulator. -/
theorem parseDigitsAux_natDigits (n : Nat) : ∀ (acc : Nat) (rest : Str),
    parseDigitsAux acc (natDigits n ++ rest) =
      parseDigitsAux (acc * 10 ^ (natDigits n).length + n) rest := by
  induction n using Nat.strong_induction_on with
  | _ n ih =>
    intro acc rest
    rw [natDigits_step]
    by_cases h10 : n < 10
    · rw [if_pos h10]
      simp only [List.cons_append, List.nil_append, List.length_cons, List.length_nil]
      rw [parseDigitsAux_digit acc _ (isDigitCh_hexDigitChar h10)]
      rw [digitVal_hexDigitChar h10]
      norm_num
    · rw [if_neg h10]
      have hdiv : n / 10 < n := Nat.div_lt_self (by omega) (by omega)
      rw [List.append_assoc]
      rw [ih (n / 10) hdiv acc ([hexDigitChar (n % 10)] ++ rest)]
      simp only [List.singleton_append]
      rw [parseDigitsAux_digit _ _ (isDigitCh_hexDigitChar (Nat.mod_lt _ (by omega)))]
      rw [digitVal_hexDigitChar (Nat.mod_lt _ (by omega))]
      have hlen : (natDigits (n / 10) ++ [hexDigitChar (n % 10)]).length =
          (natDigits (n / 10)).length + 1 := by
        simp
      rw [hlen]
      have harith : (acc * 10 ^ (natDigits (n / 10)).length + n / 10) * 10 + n % 10 =
          acc * 10 ^ ((natDigits (n / 10)).length + 1) + n := by
        rw [Nat.pow_succ]
        have hmod : n / 10 * 10 + n % 10 = n := by omega
        calc (acc * 10 ^ (natDigits (n / 10)).length + n / 10) * 10 + n % 10
            = acc * (10 ^ (natDigits (n / 10)).length * 10) + (n / 10 * 10 + n % 10) := by
              ring
          _ = acc * (10 ^ (natDigits (n / 10)).length * 10) + n := by rw [hmod]
      rw [harith]

/-- A boundary suffix starts with no digit. -/
theorem numBoundary_not_digit {c : Char} {cs : Str} (h : numBoundary (c :: cs) = true) :
    isDigitCh c = false := by
  simp only [numBoundary, Bool.not_eq_eq_eq_not, Bool.not_true] at h
  simp only [Bool.or_eq_false_iff] at h
  exact h.1.1.1

/-- A boundary suffix cannot extend a number into a float. -/
theorem numBoundary_floatFollows {l : Str} (h : numBoundary l = true) :
    floatFollows l = false := by
  cases l with
  | nil => rfl
  | cons c cs =>
    simp only [numBoundary, Bool.not_eq_eq_eq_not, Bool.not_true] at h
    simp only [Bool.or_eq_false_iff] at h
    simp only [floatFollows, Bool.or_eq_false_iff]
    exact ⟨⟨h.1.1.2, h.1.2⟩, h.2⟩

/-- The rendering of a number followed by a boundary parses back to the
number. -/
theorem parseNat_natDigits (n : Nat) (rest : Str) (h : numBoundary rest = true) :
    parseNat (natDigits n ++ rest) = some (n, rest) := by
  have hstop : parseDigitsAux 0 (natDigits n ++ rest) = (n, rest) := by
    rw [parseDigitsAux_natDigits n 0 rest]
    simp only [Nat.zero_mul, Nat.zero_add]
    refine parseDigitsAux_stop n ?_
    intro c cs hrest
    rw [hrest] at h
    exact numBoundary_not_digit h
  by_cases hn : n = 0
  · subst hn
    rw [show natDigits 0 = ['0'] from rfl]
    simp only [List.cons_append, List.nil_append]
    cases rest with
    | nil => rfl
    | cons c cs =>
      rw [show parseNat ('0' :: c :: cs) =
          (if isDigitCh c = true then none else some (0, c :: cs)) from rfl]
      rw [numBoundary_not_digit h]
      rfl
  · obtain ⟨c, cs, hcons, hcz⟩ := natDigits_head_nz n hn
    have hcd : isDigitCh c = true :=
      natDigits_all_digits n c (by rw [hcons]; exact List.mem_cons_self _ _)
    rw [hcons]
    simp only [List.cons_append]
    simp only [parseNat]
    rw [if_neg hcz, if_pos hcd]
    have : parseDigitsAux 0 (c :: (cs ++ rest)) = (n, rest) := by
      rw [show c :: (cs ++ rest) = (c :: cs) ++ rest from rfl, ← hcons]
      exact hstop
    rw [parseDigitsAux_digit 0 _ hcd] at this
    simp only [Nat.zero_mul, Nat.zero_add] at this
    rw [this]

/-- A serialized scalar followed by a boundary parses back to the value. -/
theorem parseValue_ser (v : JScalar) (rest : Str) (hb : numBoundary rest = true) :
    parseValue (serVal v ++ rest) = some (v, rest) := by
  cases v with
  | null => rfl
  | b bv => cases bv <;> rfl
  | s str =>
    show parseValue ('"' :: (serStrBody str ++ ['"']) ++ rest) = _
    rw [show ('"' :: (serStrBody str ++ ['"'])) ++ rest =
        '"' :: (serStrBody str ++ ('"' :: rest)) by simp]
    rw [show parseValue ('"' :: (serStrBody str ++ ('"' :: rest))) =
        (parseStrBody (serStrBody str ++ ('"' :: rest))).map
          (fun p => (JScalar.s p.1, p.2)) from rfl]
    rw [parseStrBody_ser]
    rfl
  | i v =>
    cases v with
    | ofNat m =>
      show parseValue (natDigits m ++ rest) = _
      obtain ⟨c, cs, hcons⟩ : ∃ c cs, natDigits m = c :: cs := by
        cases hh : natDigits m with
        | nil => exact absurd hh (natDigits_ne_nil m)
        | cons c cs => exact ⟨c, cs, rfl⟩
      have hcd : isDigitCh c = true :=
        natDigits_all_digits m c (by rw [hcons]; exact List.mem_cons_self _ _)
      have hbounds : 48 ≤ c.toNat ∧ c.toNat ≤ 57 := of_decide_eq_true hcd
      rw [hcons]
      simp only [List.cons_append]
      simp only [parseValue]
      rw [if_neg (by intro hh; rw [hh] at hcd; exact absurd hcd (by decide))]
      rw [if_neg (by intro hh; rw [hh] at hcd; exact absurd hcd (by decide))]
      rw [if_neg (by intro hh; rw [hh] at hcd; exact absurd hcd (by decide))]
      rw [if_neg (by intro hh; rw [hh] at hcd; exact absurd hcd (by decide))]
      rw [if_neg (by intro hh; rw [hh] at hcd; exact absurd hcd (by decide))]
      rw [if_pos hcd]
      rw [show c :: (cs ++ rest) = (c :: cs) ++ rest from rfl, ← hcons]
      rw [parseNat_natDigits m rest hb]
      show (if floatFollows rest = true then none
        else some (JScalar.i ((m : Nat) : Int), rest)) = _
      rw [show floatFollows rest = false from numBoundary_floatFollows hb]
      rfl
    | negSucc m =>
      show parseValue ('-' :: natDigits (m + 1) ++ rest) = _
      simp only [List.cons_append]
      rw [show parseValue ('-' :: (natDigits (m + 1) ++ rest)) =
          (match parseNat (natDigits (m + 1) ++ rest) with
           | some (n, rest2) =>
             if floatFollows rest2 = true then none else some (JScalar.i (-(n : Int)), rest2)
           | none => none) from rfl]
      rw [parseNat_natDigits (m + 1) rest hb]
      show (if floatFollows rest = true then none
        else some (JScalar.i (-((m + 1 : Nat) : Int)), rest)) = _
      rw [show floatFollows rest = false from numBoundary_floatFollows hb]
      have hneg : (-((m + 1 : Nat) : Int)) = Int.negSucc m := by
        rw [Int.negSucc_eq]
        push_cast
        ring
      simp only [Bool.false_eq_true, if_false]
      rw [hneg]

/-- Whitespace skipping leaves a serialized scalar alone. -/
theorem skipWs_serVal (v : JScalar) (rest : Str) :
    skipWs (serVal v ++ rest) = serVal v ++ rest := by
  cases v with
  | null => rfl
  | b bv => cases bv <;> rfl
  | s str => rfl
  | i n =>
    cases n with
    | negSucc m => rfl
    | ofNat m =>
      show skipWs (natDigits m ++ rest) = natDigits m ++ rest
      obtain ⟨c, cs, hcons⟩ : ∃ c cs, natDigits m = c :: cs := by
        cases hh : natDigits m with
        | nil => exact absurd hh (natDigits_ne_nil m)
        | cons c cs => exact ⟨c, cs, rfl⟩
      have hbounds : 48 ≤ c.toNat ∧ c.toNat ≤ 57 := of_decide_eq_true
        (natDigits_all_digits m c (by rw [hcons]; exact List.mem_cons_self _ _))
      have hws : ¬isWsCh c = true := by
        simp only [isWsCh, Bool.or_eq_true, beq_iff_eq]
        intro hc
        rcases hc with ((hc | hc) | hc) | hc <;> rw [hc] at hbounds <;>
          exact absurd hbounds (by decide)
      rw [hcons]
      simp only [List.cons_append, skipWs]
      rw [if_neg hws]
      rfl

/-- Whitespace skipping leaves serialized members alone. -/
theorem skipWs_serMembersList (p : Str × JScalar) (ds : JDict) (rest : Str) :
    skipWs (serMembersList (p :: ds) ++ rest) = serMembersList (p :: ds) ++ rest := by
  cases ds <;> rfl

/-- Serialized members of a nonempty dict start with a quote. -/
theorem serMembersList_cons_head (p : Str × JScalar) (ds : JDict) :
    ∃ t, serMembersList (p :: ds) = '"' :: t := by
  cases ds with
  | nil => exact ⟨_, rfl⟩
  | cons q qs => exact ⟨_, rfl⟩

/-- Serialization never shrinks the member count below the text length. -/
theorem serMembersList_length (d : JDict) : d.length ≤ (serMembersList d).length := by
  induction d with
  | nil => exact Nat.zero_le _
  | cons p ds ih =>
    cases ds with
    | nil =>
      show 0 + 1 ≤ (serMember p).length
      show 0 + 1 ≤ (serStr p.1 ++ [':', ' '] ++ serVal p.2).length
      simp [serStr]
    | cons q qs =>
      show (q :: qs).length + 1 ≤ (serMember p ++ [',', ' '] ++ serMembersList (q :: qs)).length
      simp only [List.length_append] at ih ⊢
      simp only [List.length_cons] at ih ⊢
      omega

/-- Parsing the last serialized member consumes the closing brace. -/
theorem parseMembers_last (f : Nat) (k : Str) (v : JScalar) (rest : Str) :
    parseMembers (f + 1) (serMember (k, v) ++ ('}' :: rest)) = some ([(k, v)], rest) := by
  rw [show serMember (k, v) ++ ('}' :: rest) =
      '"' :: (serStrBody k ++ ('"' :: (':' :: ' ' :: (serVal v ++ ('}' :: rest))))) by
    simp [serMember, serStr, List.append_assoc]]
  rw [parseMembers]
  rw [if_pos rfl]
  rw [parseStrBody_ser]
  show (match parseValue (skipWs (serVal v ++ ('}' :: rest))) with
        | none => none
        | some (v2, r3) =>
          match skipWs r3 with
          | [] => none
          | c2 :: r4 =>
            if c2 = ',' then
              match parseMembers f (skipWs r4) with
              | none => none
              | some (ps, r5) => some ((k, v2) :: ps, r5)
            else if c2 = '}' then some ([(k, v2)], r4)
            else none) = _
  rw [skipWs_serVal]
  rw [parseValue_ser v ('}' :: rest) rfl]
  rfl

/-- Parsing a non-final serialized member recurses past the comma. -/
theorem parseMembers_more (f : Nat) (k : Str) (v : JScalar) (q : Str × JScalar)
    (qs : JDict) (rest : Str) :
    parseMembers (f + 1)
        (serMember (k, v) ++ (',' :: ' ' :: (serMembersList (q :: qs) ++ ('}' :: rest)))) =
      (parseMembers f (serMembersList (q :: qs) ++ ('}' :: rest))).map
        (fun r => ((k, v) :: r.1, r.2)) := by
  rw [show serMember (k, v) ++ (',' :: ' ' :: (serMembersList (q :: qs) ++ ('}' :: rest))) =
      '"' :: (serStrBody k ++ ('"' :: (':' :: ' ' ::
        (serVal v ++ (',' :: ' ' :: (serMembersList (q :: qs) ++ ('}' :: rest))))))) by
    simp [serMember, serStr, List.append_assoc]]
  rw [parseMembers]
  rw [if_pos rfl]
  rw [parseStrBody_ser]
  show (match parseValue (skipWs (serVal v ++
          (',' :: ' ' :: (serMembersList (q :: qs) ++ ('}' :: rest))))) with
        | none => none
        | some (v2, r3) =>
          match skipWs r3 with
          | [] => none
          | c2 :: r4 =>
            if c2 = ',' then
              match parseMembers f (skipWs r4) with
              | none => none
              | some (ps, r5) => some ((k, v2) :: ps, r5)
            else if c2 = '}' then some ([(k, v2)], r4)
            else none) = _
  rw [skipWs_serVal]
  rw [parseValue_ser v (',' :: ' ' :: (serMembersList (q :: qs) ++ ('}' :: rest))) rfl]
  show (match parseMembers f (skipWs (' ' :: (serMembersList (q :: qs) ++ ('}' :: rest)))) with
        | none => none
        | some (ps, r5) => some ((k, v) :: ps, r5)) = _
  rw [show skipWs (' ' :: (serMembersList (q :: qs) ++ ('}' :: rest))) =
      skipWs (serMembersList (q :: qs) ++ ('}' :: rest)) from rfl]
  rw [skipWs_serMembersList]
  cases hpm : parseMembers f (serMembersList (q :: qs) ++ ('}' :: rest)) with
  | none => rfl
  | some r =>
    obtain ⟨ps, r5⟩ := r
    rfl

/-- The serialized members of a nonempty dict followed by the closing brace
parse back to the dict, given fuel at or above the member count. -/
theorem parseMembers_ser (d : JDict) : ∀ (fuel : Nat) (rest : Str), d ≠ [] →
    d.length ≤ fuel →
    parseMembers fuel (serMembersList d ++ ('}' :: rest)) = some (d, rest) := by
  induction d with
  | nil =>
    intro fuel rest hne _
    exact absurd rfl hne
  | cons p ds ih =>
    intro fuel rest _ hlen
    match fuel, hlen with
    | f + 1, hlen =>
      obtain ⟨k, v⟩ := p
      cases ds with
      | nil => exact parseMembers_last f k v rest
      | cons q qs =>
        rw [show serMembersList ((k, v) :: q :: qs) ++ ('}' :: rest) =
            serMember (k, v) ++ (',' :: ' ' :: (serMembersList (q :: qs) ++ ('}' :: rest))) by
          simp [serMembersList, List.append_assoc]]
        rw [parseMembers_more f k v q qs rest]
        rw [ih f rest (List.cons_ne_nil q qs) (by simp only [List.length_cons] at hlen ⊢; omega)]
        rfl

/-- Python json.loads inverts json.dumps on dicts of scalars with distinct
keys. -/
theorem jsonLoads_jsonDumps (d : JDict) (hn : (d.map Prod.fst).Nodup) :
    jsonLoads (jsonDumps d) = some d := by
  cases d with
  | nil => rfl
  | cons p ds =>
    obtain ⟨t, ht⟩ := serMembersList_cons_head p ds
    show jsonLoads ('{' :: (serMembersList (p :: ds) ++ ('}' :: []))) = _
    rw [jsonLoads]
    show (if '{' = '{' then
        match skipWs (serMembersList (p :: ds) ++ ('}' :: [])) with
        | [] => none
        | c1 :: r2 =>
          if c1 = '}' then (if skipWs r2 = [] then some [] else none)
          else
            match parseMembers ((c1 :: r2).length + 1) (c1 :: r2) with
            | some (ps, r3) => if skipWs r3 = [] then some (fromPairs ps) else none
            | none => none
      else none) = _
    rw [if_pos rfl]
    rw [skipWs_serMembersList]
    rw [show serMembersList (p :: ds) ++ ('}' :: []) = '"' :: (t ++ ('}' :: [])) by
      rw [ht]; rfl]
    show (if ('"' : Char) = '}' then (if skipWs (t ++ ('}' :: [])) = [] then some [] else none)
        else
          match parseMembers (('"' :: (t ++ ('}' :: []))).length + 1)
              ('"' :: (t ++ ('}' :: []))) with
          | some (ps, r3) => if skipWs r3 = [] then some (fromPairs ps) else none
          | none => none) = _
    rw [if_neg (by decide)]
    rw [show ('"' : Char) :: (t ++ ('}' :: [])) = serMembersList (p :: ds) ++ ('}' :: []) by
      rw [ht]; rfl]
    rw [parseMembers_ser (p :: ds) _ [] (List.cons_ne_nil p ds) ?hfuel]
    case hfuel =>
      have h1 := serMembersList_length (p :: ds)
      simp only [List.length_cons, List.length_append] at h1 ⊢
      omega
    show (if skipWs [] = [] then some (fromPairs (p :: ds)) else none) = _
    rw [if_pos (show skipWs [] = [] from rfl)]
    rw [fromPairs_eq_self hn]

/-- Hexadecimal digit characters are ASCII. -/
theorem hexDigitChar_ascii {m : Nat} (h : m < 16) : (hexDigitChar m).toNat < 128 := by
  interval_cases m <;> decide

/-- Characters of a four-digit hexadecimal rendering are ASCII. -/
theorem toHex4_ascii (n : Nat) : ∀ x ∈ toHex4 n, x.toNat < 128 := by
  intro x hx
  simp only [toHex4, List.mem_cons, List.mem_singleton, List.not_mem_nil, or_false] at hx
  rcases hx with hx | hx | hx | hx <;> rw [hx] <;>
    exact hexDigitChar_ascii (Nat.mod_lt _ (by omega))

/-- Membership in a concrete ASCII list gives the bound. -/
theorem ascii_of_mem_all {x : Char} {l : Str} (hx : x ∈ l)
    (h : l.all (fun y => decide (y.toNat < 128)) = true) : x.toNat < 128 :=
  of_decide_eq_true (List.all_eq_true.mp h x hx)

/-- Escapes produced by the encoder are pure ASCII. -/
theorem escChar_ascii (c : Char) : ∀ x ∈ escChar c, x.toNat < 128 := by
  intro x hx
  unfold escChar at hx
  by_cases h1 : c = '"'
  · rw [if_pos h1] at hx
    exact ascii_of_mem_all hx (by decide)
  · rw [if_neg h1] at hx
    by_cases h2 : c = '\\'
    · rw [if_pos h2] at hx
      exact ascii_of_mem_all hx (by decide)
    · rw [if_neg h2] at hx
      by_cases h3 : 32 ≤ c.toNat ∧ c.toNat ≤ 126
      · rw [if_pos h3] at hx
        rcases List.mem_singleton.mp hx with rfl
        omega
      · rw [if_neg h3] at hx
        by_cases h4 : c = '\x08'
        · rw [if_pos h4] at hx
          exact ascii_of_mem_all hx (by decide)
        · rw [if_neg h4] at hx
          by_cases h5 : c = '\x0C'
          · rw [if_pos h5] at hx
            exact ascii_of_mem_all hx (by decide)
          · rw [if_neg h5] at hx
            by_cases h6 : c = '\n'
            · rw [if_pos h6] at hx
              exact ascii_of_mem_all hx (by decide)
            · rw [if_neg h6] at hx
              by_cases h7 : c = '\r'
              · rw [if_pos h7] at hx
                exact ascii_of_mem_all hx (by decide)
              · rw [if_neg h7] at hx
                by_cases h8 : c = '\t'
                · rw [if_pos h8] at hx
                  exact ascii_of_mem_all hx (by decide)
                · rw [if_neg h8] at hx
                  by_cases h9 : c.toNat < 65536
                  · rw [if_pos h9] at hx
                    rcases List.mem_cons.mp hx with hx | hx
                    · rw [hx]
                      decide
                    · rcases List.mem_cons.mp hx with hx | hx
                      · rw [hx]
                        decide
                      · exact toHex4_ascii _ x hx
                  · rw [if_neg h9] at hx
                    rcases List.mem_append.mp hx with hx | hx <;>
                      (rcases List.mem_cons.mp hx with hx | hx
                       · rw [hx]
                         decide
                       · rcases List.mem_cons.mp hx with hx | hx
                         · rw [hx]
                           decide
                         · exact toHex4_ascii _ x hx)

/-- Serialized string bodies are pure ASCII. -/
theorem serStrBody_ascii (s : Str) : ∀ x ∈ serStrBody s, x.toNat < 128 := by
  induction s with
  | nil => intro x hx; simp [serStrBody] at hx
  | cons c cs ih =>
    intro x hx
    simp only [serStrBody, List.mem_append] at hx
    rcases hx with hx | hx
    · exact escChar_ascii c x hx
    · exact ih x hx

/-- Serialized string literals are pure ASCII. -/
theorem serStr_ascii (s : Str) : ∀ x ∈ serStr s, x.toNat < 128 := by
  intro x hx
  simp only [serStr, List.mem_cons, List.mem_append, List.mem_singleton,
    List.not_mem_nil, or_false] at hx
  have hflat : x = '"' ∨ x ∈ serStrBody s := by tauto
  rcases hflat with hx2 | hx2
  · rw [hx2]
    decide
  · exact serStrBody_ascii s x hx2

/-- Serialized scalars are pure ASCII. -/
theorem serVal_ascii (v : JScalar) : ∀ x ∈ serVal v, x.toNat < 128 := by
  intro x hx
  cases v with
  | null =>
    exact ascii_of_mem_all hx (by decide)
  | b bv =>
    cases bv <;> exact ascii_of_mem_all hx (by decide)
  | s str => exact serStr_ascii str x hx
  | i n =>
    have hdig : ∀ y ∈ x :: [], True := fun _ _ => trivial
    cases n with
    | ofNat m =>
      have := natDigits_all_digits m x hx
      have hb : 48 ≤ x.toNat ∧ x.toNat ≤ 57 := of_decide_eq_true this
      omega
    | negSucc m =>
      rcases List.mem_cons.mp hx with hx | hx
      · rw [hx]
        decide
      · have := natDigits_all_digits (m + 1) x hx
        have hb : 48 ≤ x.toNat ∧ x.toNat ≤ 57 := of_decide_eq_true this
        omega

/-- The output of json.dumps is pure ASCII, as ensure_ascii promises. -/
theorem jsonDumps_ascii (d : JDict) : ∀ x ∈ jsonDumps d, x.toNat < 128 := by
  have hm : ∀ e : JDict, ∀ x ∈ serMembersList e, x.toNat < 128 := by
    intro e
    induction e with
    | nil => intro x hx; simp [serMembersList] at hx
    | cons p ds ih =>
      intro x hx
      cases ds with
      | nil =>
        simp only [serMembersList, serMember, List.mem_append, List.mem_cons,
          List.mem_singleton, List.not_mem_nil, or_false] at hx
        have hflat : x ∈ serStr p.1 ∨ x = ':' ∨ x = ' ' ∨ x ∈ serVal p.2 := by tauto
        rcases hflat with hx2 | hx2 | hx2 | hx2
        · exact serStr_ascii p.1 x hx2
        · rw [hx2]
          decide
        · rw [hx2]
          decide
        · exact serVal_ascii p.2 x hx2
      | cons q qs =>
        simp only [serMembersList, serMember, List.mem_append, List.mem_cons,
          List.mem_singleton, List.not_mem_nil, or_false] at hx
        have hflat : x ∈ serStr p.1 ∨ x = ':' ∨ x = ' ' ∨ x ∈ serVal p.2 ∨ x = ',' ∨
            x ∈ serMembersList (q :: qs) := by tauto
        rcases hflat with hx2 | hx2 | hx2 | hx2 | hx2 | hx2
        · exact serStr_ascii p.1 x hx2
        · rw [hx2]
          decide
        · rw [hx2]
          decide
        · exact serVal_ascii p.2 x hx2
        · rw [hx2]
          decide
        · exact ih x hx2
  intro x hx
  simp only [jsonDumps, List.mem_cons, List.mem_append, List.mem_singleton,
    List.not_mem_nil, or_false] at hx
  have hflat : x = '{' ∨ x ∈ serMembersList d ∨ x = '}' := by tauto
  rcases hflat with hx2 | hx2 | hx2
  · rw [hx2]
    decide
  · exact hm d x hx2
  · rw [hx2]
    decide

/-- Decoding one ASCII byte yields its character. -/
theorem utf8DecodeOne_ascii {b : Nat} (rest : List Nat) (hb : b < 128) :
    utf8DecodeOne (b :: rest) = some (Char.ofNat b, rest) := by
  simp only [utf8DecodeOne]
  rw [if_pos hb]

/-- Encoding an ASCII string gives one byte per character. -/
theorem utf8Encode_ascii_cons (c : Char) (cs : Str) (hc : c.toNat < 128) :
    utf8Encode (c :: cs) = c.toNat :: utf8Encode cs := by
  show utf8EncodeChar c ++ utf8Encode cs = _
  rw [show utf8EncodeChar c = [c.toNat] by unfold utf8EncodeChar; rw [if_pos hc]]
  rfl

/-- UTF-8 decoding inverts encoding on ASCII strings, for any fuel above
the string length. -/
theorem utf8DecodeF_utf8Encode_ascii (s : Str) : ∀ fuel : Nat, s.length < fuel →
    (∀ c ∈ s, c.toNat < 128) → utf8DecodeF fuel (utf8Encode s) = some s := by
  induction s with
  | nil =>
    intro fuel _ _
    cases fuel <;> rfl
  | cons c cs ih =>
    intro fuel hfuel h
    have hc : c.toNat < 128 := h c (List.mem_cons_self _ _)
    rw [utf8Encode_ascii_cons c cs hc]
    match fuel, hfuel with
    | f + 1, hfuel =>
      rw [utf8DecodeF]
      rw [utf8DecodeOne_ascii _ hc]
      show (utf8DecodeF f (utf8Encode cs)).map (fun s => Char.ofNat c.toNat :: s) = _
      rw [ih f (by simp only [List.length_cons] at hfuel; omega)
        (fun x hx => h x (List.mem_cons_of_mem c hx))]
      show some (Char.ofNat c.toNat :: cs) = _
      rw [Char.ofNat_toNat]

/-- Encoding never shrinks a string. -/
theorem utf8Encode_length (s : Str) : s.length ≤ (utf8Encode s).length := by
  induction s with
  | nil => exact Nat.zero_le _
  | cons c cs ih =>
    have hpos : 0 < (utf8EncodeChar c).length := by
      unfold utf8EncodeChar
      simp only [apply_ite List.length, List.length_cons, List.length_nil]
      repeat' split
      all_goals omega
    simp only [utf8Encode, List.length_append, List.length_cons]
    omega

/-- UTF-8 decoding inverts encoding on ASCII strings; json.dumps output
with ensure_ascii is always in this range. -/
theorem utf8Decode_utf8Encode_ascii (s : Str) (h : ∀ c ∈ s, c.toNat < 128) :
    utf8Decode (utf8Encode s) = some s := by
  unfold utf8Decode
  refine utf8DecodeF_utf8Encode_ascii s _ ?_ h
  have := utf8Encode_length s
  omega

/-- UTF-8 encoded output consists of bytes. -/
theorem utf8Encode_bytes (s : Str) : ∀ b ∈ utf8Encode s, b < 256 := by
  induction s with
  | nil =>
    intro b hb
    simp [utf8Encode] at hb
  | cons c cs ih =>
    intro b hb
    simp only [utf8Encode, List.mem_append] at hb
    rcases hb with hb | hb
    · have hlt := char_toNat_lt c
      unfold utf8EncodeChar at hb
      by_cases e1 : c.toNat < 128
      · rw [if_pos e1] at hb
        rcases List.mem_singleton.mp hb with rfl
        omega
      · rw [if_neg e1] at hb
        by_cases e2 : c.toNat < 2048
        · rw [if_pos e2] at hb
          simp only [List.mem_cons, List.mem_singleton, List.not_mem_nil, or_false] at hb
          rcases hb with hb | hb <;> omega
        · rw [if_neg e2] at hb
          by_cases e3 : c.toNat < 65536
          · rw [if_pos e3] at hb
            simp only [List.mem_cons, List.mem_singleton, List.not_mem_nil, or_false] at hb
            rcases hb with hb | hb | hb <;> omega
          · rw [if_neg e3] at hb
            simp only [List.mem_cons, List.mem_singleton, List.not_mem_nil, or_false] at hb
            rcases hb with hb | hb | hb | hb <;> omega
    · exact ih b hb

/-- Alphabet characters are never the padding character. -/
theorem b64Char_ne_pad (n : Nat) : ¬b64Char n = '=' := by
  by_cases h : n < 64
  · interval_cases n <;> decide
  · unfold b64Char
    rw [List.getD_eq_default _ _ (by simp; omega)]
    decide

/-- An alphabet character decodes back to its 6-bit value. -/
theorem b64CharVal_b64Char {n : Nat} (h : n < 64) : b64CharVal (b64Char n) = some n := by
  interval_cases n <;> rfl

/-- Base64 decoding inverts encoding on byte sequences. -/
theorem b64d_b64e (bs : List Nat) (h : ∀ b ∈ bs, b < 256) : b64d (b64e bs) = some bs := by
  induction bs using b64e.induct with
  | case4 => rfl
  | case3 b0 =>
    have hb0 : b0 < 256 := h b0 (List.mem_cons_self _ _)
    show b64d [b64Char (b0 * 16 / 64), b64Char (b0 * 16 % 64), '=', '='] = _
    rw [b64d]
    rw [if_pos ⟨rfl, rfl⟩]
    rw [b64CharVal_b64Char (by omega), b64CharVal_b64Char (by omega)]
    show (if ('=' : Char) = '=' then some [(b0 * 16 / 64 * 64 + b0 * 16 % 64) / 16]
      else _) = _
    rw [if_pos rfl]
    refine congrArg some ?_
    rw [show b0 * 16 / 64 * 64 + b0 * 16 % 64 = b0 * 16 by omega]
    rw [show b0 * 16 / 16 = b0 by omega]
  | case2 b0 b1 =>
    have hb0 : b0 < 256 := h b0 (List.mem_cons_self _ _)
    have hb1 : b1 < 256 := h b1 (List.mem_cons_of_mem _ (List.mem_cons_self _ _))
    set w := b0 * 1024 + b1 * 4 with hw
    show b64d [b64Char (w / 4096), b64Char (w / 64 % 64), b64Char (w % 64), '='] = _
    rw [b64d]
    rw [if_pos ⟨rfl, rfl⟩]
    rw [b64CharVal_b64Char (by omega), b64CharVal_b64Char (by omega)]
    show (if b64Char (w % 64) = '=' then some [(w / 4096 * 64 + w / 64 % 64) / 16]
      else
        match b64CharVal (b64Char (w % 64)) with
        | some vc =>
          some [(w / 4096 * 4096 + w / 64 % 64 * 64 + vc) / 1024,
            (w / 4096 * 4096 + w / 64 % 64 * 64 + vc) / 4 % 256]
        | none => none) = _
    rw [if_neg (b64Char_ne_pad _)]
    rw [b64CharVal_b64Char (show w % 64 < 64 by omega)]
    refine congrArg some ?_
    rw [show w / 4096 * 4096 + w / 64 % 64 * 64 + w % 64 = w by omega]
    rw [show w / 1024 = b0 by omega]
    rw [show w / 4 % 256 = b1 by omega]
  | case1 b0 b1 b2 rest ih =>
    have hb0 : b0 < 256 := h b0 (List.mem_cons_self _ _)
    have hb1 : b1 < 256 := h b1 (List.mem_cons_of_mem _ (List.mem_cons_self _ _))
    have hb2 : b2 < 256 := h b2
      (List.mem_cons_of_mem _ (List.mem_cons_of_mem _ (List.mem_cons_self _ _)))
    have hrest : ∀ b ∈ rest, b < 256 := fun b hb => h b
      (List.mem_cons_of_mem _ (List.mem_cons_of_mem _ (List.mem_cons_of_mem _ hb)))
    set w := b0 * 65536 + b1 * 256 + b2 with hw
    show b64d (b64Char (w / 262144) :: b64Char (w / 4096 % 64) ::
      b64Char (w / 64 % 64) :: b64Char (w % 64) :: b64e rest) = _
    rw [b64d]
    rw [if_neg (fun hc => b64Char_ne_pad _ hc.2)]
    rw [b64CharVal_b64Char (by omega), b64CharVal_b64Char (by omega),
      b64CharVal_b64Char (by omega), b64CharVal_b64Char (by omega)]
    show (match b64d (b64e rest) with
      | some bs =>
        some ((w / 262144 * 262144 + w / 4096 % 64 * 4096 + w / 64 % 64 * 64 + w % 64) /
            65536 ::
          (w / 262144 * 262144 + w / 4096 % 64 * 4096 + w / 64 % 64 * 64 + w % 64) /
            256 % 256 ::
          (w / 262144 * 262144 + w / 4096 % 64 * 4096 + w / 64 % 64 * 64 + w % 64) %
            256 :: bs)
      | none => none) = _
    rw [ih hrest]
    refine congrArg some ?_
    rw [show w / 262144 * 262144 + w / 4096 % 64 * 4096 + w / 64 % 64 * 64 + w % 64 = w
      by omega]
    rw [show w / 65536 = b0 by omega]
    rw [show w / 256 % 256 = b1 by omega]
    rw [show w % 256 = b2 by omega]

/-- C1: for every dict of JSON scalars (distinct keys, as any Python dict
has), CompositeKey.decode inverts CompositeKey.encode exactly. -/
theorem compositeKey_roundtrip (d : JDict) (hn : (d.map Prod.fst).Nodup) :
    CompositeKey.decode (CompositeKey.encode d) = some d := by
  unfold CompositeKey.encode CompositeKey.decode
  rw [b64d_b64e _ (utf8Encode_bytes _)]
  show (match utf8Decode (utf8Encode (jsonDumps d)) with
    | some chars => jsonLoads chars
    | none => none) = _
  rw [utf8Decode_utf8Encode_ascii _ (jsonDumps_ascii d)]
  show jsonLoads (jsonDumps d) = _
  rw [jsonLoads_jsonDumps d hn]

/-- Witness for C1 at the concrete key dict with columns a and b. -/
theorem compositeKey_roundtrip_witness :
    (([(['a'], JScalar.i 1), (['b'], JScalar.s ['x'])] : JDict).map Prod.fst).Nodup ∧
    CompositeKey.decode (CompositeKey.encode [(['a'], JScalar.i 1), (['b'], JScalar.s ['x'])]) =
      some [(['a'], JScalar.i 1), (['b'], JScalar.s ['x'])] :=
  ⟨by decide, compositeKey_roundtrip [(['a'], JScalar.i 1), (['b'], JScalar.s ['x'])] (by decide)⟩

/-- Items of an insertion come from the dict or are the inserted pair. -/
theorem mem_dictInsert {α : Type} {d : List (Str × α)} {k : Str} {v : α}
    {p : Str × α} (hp : p ∈ dictInsert d k v) : p ∈ d ∨ p = (k, v) := by
  unfold dictInsert at hp
  by_cases hc : containsKey d k = true
  · rw [if_pos hc] at hp
    obtain ⟨q, hq, hpq⟩ := List.mem_map.mp hp
    by_cases hqk : q.1 = k
    · rw [if_pos hqk] at hpq
      exact Or.inr hpq.symm
    · rw [if_neg hqk] at hpq
      exact Or.inl (hpq ▸ hq)
  · rw [if_neg hc] at hp
    rcases List.mem_append.mp hp with hp | hp
    · exact Or.inl hp
    · exact Or.inr (List.mem_singleton.mp hp)

/-- Items of a dict-insertion fold come from the accumulator or the pairs. -/
theorem mem_foldl_dictInsert {α : Type} (p : Str × α) :
    ∀ (ps acc : List (Str × α)),
      p ∈ ps.foldl (fun d q => dictInsert d q.1 q.2) acc → p ∈ acc ∨ p ∈ ps := by
  intro ps
  induction ps with
  | nil =>
    intro acc hacc
    exact Or.inl hacc
  | cons q qs ih =>
    intro acc hacc
    rw [List.foldl_cons] at hacc
    rcases ih (dictInsert acc q.1 q.2) hacc with hc | hc
    · rcases mem_dictInsert hc with hc2 | hc2
      · exact Or.inl hc2
      · right
        rw [hc2, Prod.mk.eta]
        exact List.mem_cons_self _ _
    · exact Or.inr (List.mem_cons_of_mem _ hc)

/-- Items of a built dict come from the given pairs. -/
theorem mem_fromPairs {α : Type} {ps : List (Str × α)} {p : Str × α}
    (hp : p ∈ fromPairs ps) : p ∈ ps := by
  rcases mem_foldl_dictInsert p ps [] hp with hc | hc
  · exact absurd hc (List.not_mem_nil p)
  · exact hc

/-- Key membership is preserved by insertion. -/
theorem mem_keys_dictInsert {α : Type} {d : List (Str × α)} {k k2 : Str} {v : α} :
    k2 ∈ (dictInsert d k v).map Prod.fst ↔ k2 ∈ d.map Prod.fst ∨ k2 = k := by
  unfold dictInsert
  by_cases hc : containsKey d k = true
  · rw [if_pos hc]
    constructor
    · intro h
      obtain ⟨q, hq, hpq⟩ := List.mem_map.mp h
      obtain ⟨q2, hq2, hq2q⟩ := List.mem_map.mp hq
      by_cases hqk : q2.1 = k
      · rw [if_pos hqk] at hq2q
        right
        rw [← hpq, ← hq2q]
      · rw [if_neg hqk] at hq2q
        left
        exact List.mem_map.mpr ⟨q2, hq2, by rw [hq2q, hpq]⟩
    · intro h
      rcases h with h | h
      · obtain ⟨q, hq, hpq⟩ := List.mem_map.mp h
        by_cases hqk : q.1 = k
        · refine List.mem_map.mpr ⟨(k, v), List.mem_map.mpr ⟨q, hq, by rw [if_pos hqk]⟩, ?_⟩
          rw [← hpq, hqk]
        · exact List.mem_map.mpr ⟨q, List.mem_map.mpr ⟨q, hq, by rw [if_neg hqk]⟩, hpq⟩
      · unfold containsKey at hc
        cases hl : alookup d k with
        | none => rw [hl] at hc; cases hc
        | some w =>
          have hmem := alookup_eq_some_mem hl
          refine List.mem_map.mpr ⟨(k, v), List.mem_map.mpr ⟨(k, w), hmem, by
            rw [if_pos rfl]⟩, by rw [h]⟩
  · rw [if_neg hc]
    simp only [List.map_append, List.mem_append, List.map_cons, List.map_nil,
      List.mem_singleton, List.mem_cons, List.not_mem_nil, or_false]

/-- Key membership in a built dict matches the given pairs. -/
theorem mem_keys_fromPairs {α : Type} {ps : List (Str × α)} {k : Str} :
    k ∈ (fromPairs ps).map Prod.fst ↔ k ∈ ps.map Prod.fst := by
  have h : ∀ (qs : List (Str × α)) (acc : List (Str × α)),
      (k ∈ (qs.foldl (fun d q => dictInsert d q.1 q.2) acc).map Prod.fst ↔
        k ∈ acc.map Prod.fst ∨ k ∈ qs.map Prod.fst) := by
    intro qs
    induction qs with
    | nil =>
      intro acc
      simp only [List.foldl_nil, List.map_nil, List.not_mem_nil, or_false]
    | cons q qs ih =>
      intro acc
      rw [List.foldl_cons, ih (dictInsert acc q.1 q.2)]
      rw [mem_keys_dictInsert]
      simp only [List.map_cons, List.mem_cons]
      tauto
  rw [show fromPairs ps = ps.foldl (fun d q => dictInsert d q.1 q.2) [] from rfl]
  rw [h ps []]
  simp only [List.map_nil, List.not_mem_nil, false_or]

/-- The keyword filter of the instance key holds exactly when every
constituent column of the row carries the instance's serialized value. -/
theorem instanceKey_matches (columns : List Str) (inst r : Row) :
    ((CompositeKeyField.instanceKey columns inst).all
        (fun p => decide (rowGet r p.1 = p.2)) = true) ↔
      ∀ c ∈ columns, rowGet r c = CompositeKeyField.toJson (rowGet inst c) := by
  constructor
  · intro hall c hc
    have hkey : c ∈ (CompositeKeyField.instanceKey columns inst).map Prod.fst := by
      unfold CompositeKeyField.instanceKey
      rw [mem_keys_fromPairs]
      refine List.mem_map.mpr ⟨(c, CompositeKeyField.toJson (rowGet inst c)), ?_, rfl⟩
      exact List.mem_map.mpr ⟨c, hc, rfl⟩
    obtain ⟨p, hp, hpc⟩ := List.mem_map.mp hkey
    have hpmem := mem_fromPairs (show p ∈ fromPairs _ from hp)
    obtain ⟨c2, hc2, hpeq⟩ := List.mem_map.mp hpmem
    subst hpeq
    have hc2c : c2 = c := hpc
    subst hc2c
    exact of_decide_eq_true (List.all_eq_true.mp hall _ hp)
  · intro h
    refine List.all_eq_true.mpr ?_
    intro p hp
    have hpmem := mem_fromPairs (by
      unfold CompositeKeyField.instanceKey at hp
      exact hp)
    obtain ⟨c, hc, hpeq⟩ := List.mem_map.mp hpmem
    rw [← hpeq]
    exact decide_eq_true (h c hc)

/-- C3: deleting a composite-keyed record removes exactly the rows whose
values match all constituent key-column values: a row of the table survives
the delete exactly when it fails at least one per-column equality. -/
theorem compositeDelete_exact (columns : List Str) (table : List Row) (inst r : Row)
    (hr : r ∈ table) :
    (r ∉ compositeDelete columns table inst ↔
      ∀ c ∈ columns, rowGet r c = CompositeKeyField.toJson (rowGet inst c)) := by
  unfold compositeDelete rawDeleteRemaining
  rw [List.mem_filter]
  rw [← instanceKey_matches columns inst r]
  constructor
  · intro hnot
    by_cases hall : (CompositeKeyField.instanceKey columns inst).all
        (fun p => decide (rowGet r p.1 = p.2)) = true
    · exact hall
    · exfalso
      apply hnot
      refine ⟨hr, ?_⟩
      rw [Bool.not_eq_true] at hall
      rw [hall]
      rfl
  · intro hall hmem
    obtain ⟨_, hpred⟩ := hmem
    rw [hall] at hpred
    cases hpred

/-- Witness for C3 at a concrete two-column delete. -/
theorem compositeDelete_exact_witness :
    (([(['a'], JScalar.i 1), (['b'], JScalar.i 2)] : Row) ∈
      ([[(['a'], JScalar.i 1), (['b'], JScalar.i 2)],
        [(['a'], JScalar.i 1), (['b'], JScalar.i 3)]] : List Row)) ∧
    (([(['a'], JScalar.i 1), (['b'], JScalar.i 2)] : Row) ∉
        compositeDelete [['a'], ['b']]
          [[(['a'], JScalar.i 1), (['b'], JScalar.i 2)],
           [(['a'], JScalar.i 1), (['b'], JScalar.i 3)]]
          [(['a'], JScalar.i 1), (['b'], JScalar.i 2)] ↔
      ∀ c ∈ [['a'], ['b']],
        rowGet [(['a'], JScalar.i 1), (['b'], JScalar.i 2)] c =
          CompositeKeyField.toJson
            (rowGet [(['a'], JScalar.i 1), (['b'], JScalar.i 2)] c)) :=
  ⟨by decide,
   compositeDelete_exact [['a'], ['b']]
     [[(['a'], JScalar.i 1), (['b'], JScalar.i 2)],
      [(['a'], JScalar.i 1), (['b'], JScalar.i 3)]]
     [(['a'], JScalar.i 1), (['b'], JScalar.i 2)]
     [(['a'], JScalar.i 1), (['b'], JScalar.i 2)] (by decide)⟩

/-- C4: an exact lookup on the composite pseudo-field compiles to exactly
one per-column equality constraint for each constituent column, carrying
the token's value for that column, combined with AND; its evaluation on any
row is the conjunction of the per-column equalities, never a comparison
against the token itself. -/
theorem exactAsSql_conj (columns : List Str) (rhs : JDict)
    (h : ∀ c ∈ columns, (alookup rhs c).isSome = true) :
    exactAsSql columns rhs =
      some (columns.map (fun c => (c, (alookup rhs c).getD JScalar.null))) ∧
    ∀ r : Row,
      evalConj (columns.map (fun c => (c, (alookup rhs c).getD JScalar.null))) r =
        columns.all (fun c => decide (rowGet r c = (alookup rhs c).getD JScalar.null)) := by
  constructor
  · unfold exactAsSql
    induction columns with
    | nil => rfl
    | cons c cs ih =>
      have hc := h c (List.mem_cons_self _ _)
      obtain ⟨v, hv⟩ := Option.isSome_iff_exists.mp hc
      rw [List.mapM_cons]
      rw [hv]
      rw [ih (fun x hx => h x (List.mem_cons_of_mem c hx))]
      simp only [List.map_cons, hv, Option.map_some', Option.getD_some]
      rfl
  · intro r
    unfold evalConj
    induction columns with
    | nil => rfl
    | cons c cs ih =>
      simp only [List.map_cons, List.all_cons]
      rw [ih (fun x hx => h x (List.mem_cons_of_mem c hx))]

/-- Witness for C4 at a concrete two-column token. -/
theorem exactAsSql_conj_witness :
    (∀ c ∈ [['a'], ['b']],
      (alookup ([(['a'], JScalar.i 1), (['b'], JScalar.s ['x'])] : JDict) c).isSome = true) ∧
    exactAsSql [['a'], ['b']] [(['a'], JScalar.i 1), (['b'], JScalar.s ['x'])] =
      some [(['a'], JScalar.i 1), (['b'], JScalar.s ['x'])] ∧
    ∀ r : Row,
      evalConj [(['a'], JScalar.i 1), (['b'], JScalar.s ['x'])] r =
        ([['a'], ['b']] : List Str).all (fun c => decide (rowGet r c =
          (alookup ([(['a'], JScalar.i 1), (['b'], JScalar.s ['x'])] : JDict) c).getD
            JScalar.null)) := by
  refine ⟨by decide, ?_⟩
  have h := exactAsSql_conj [['a'], ['b']] [(['a'], JScalar.i 1), (['b'], JScalar.s ['x'])]
    (by decide)
  exact h

/-- C5: every column with foreign keys is exposed under its name with the
trailing storage suffix stripped when present and with the fallback suffix
appended otherwise, while db_column keeps the original column name. -/
theorem columnAsField_fk_naming (nm : Str) (t : SAType) (nl pk : Bool)
    (df : Option DefaultArg) (f0 : SAColumn) (fks : List SAColumn) (tb : Str)
    (isPk : Bool) :
    (columnAsField (.mk nm t nl pk df (f0 :: fks) tb) isPk).1 =
      (if endsWithUid nm then dropLast3 nm else nm ++ "_obj".toList) ∧
    (columnAsField (.mk nm t nl pk df (f0 :: fks) tb) isPk).2.dbColumn = some nm := by
  constructor
  · rfl
  · rfl

/-- Counterexample for C6 as stated: a string-typed column that declares
the maximum length 0 produces an unbounded TextField without max_length
rather than a CharField of that length, and a string-typed column with
foreign keys produces a ForeignKey rather than a CharField. -/
theorem columnAsField_string_counterexample :
    ¬((columnAsField (.mk ['v'] (.string (some 0)) false false none [] ['t'])
        false).2.fieldClass = .charField ∧
      (columnAsField (.mk ['v'] (.string (some 0)) false false none [] ['t'])
        false).2.maxLength = some 0) ∧
    (columnAsField (.mk ['v'] (.string (some 0)) false false none [] ['t'])
      false).2.fieldClass = .textField ∧
    (columnAsField (.mk ['v'] (.string (some 0)) false false none [] ['t'])
      false).2.maxLength = none ∧
    (columnAsField
      (.mk "x_id".toList (.string (some 5)) false false none
        [.mk "id".toList .integer false true none [] "u".toList] ['t'])
      false).2.fieldClass = .foreignKey := by
  refine ⟨?_, rfl, rfl, rfl⟩
  intro hc
  cases hc.1

/-- C6 as amended: for every string-typed column without foreign keys, a
positive declared length gives a CharField with exactly that max_length,
while an absent or zero length gives a TextField with no max_length. -/
theorem columnAsField_string_mapping (nm : Str) (l : Option Nat) (nl pk : Bool)
    (df : Option DefaultArg) (tb : Str) (isPk : Bool) :
    (∀ k : Nat, l = some (k + 1) →
      (columnAsField (.mk nm (.string l) nl pk df [] tb) isPk).2.fieldClass = .charField ∧
      (columnAsField (.mk nm (.string l) nl pk df [] tb) isPk).2.maxLength = some (k + 1)) ∧
    ((l = none ∨ l = some 0) →
      (columnAsField (.mk nm (.string l) nl pk df [] tb) isPk).2.fieldClass = .textField ∧
      (columnAsField (.mk nm (.string l) nl pk df [] tb) isPk).2.maxLength = none) := by
  constructor
  · intro k hk
    subst hk
    exact ⟨rfl, rfl⟩
  · intro hk
    rcases hk with hk | hk <;> subst hk <;> exact ⟨rfl, rfl⟩

/-- Witness for C6 as amended, at lengths 5, 0 and none. -/
theorem columnAsField_string_mapping_witness :
    ((columnAsField (.mk ['v'] (.string (some 5)) false false none [] ['t'])
        false).2.fieldClass = .charField ∧
      (columnAsField (.mk ['v'] (.string (some 5)) false false none [] ['t'])
        false).2.maxLength = some 5) ∧
    ((columnAsField (.mk ['v'] (.string none) false false none [] ['t'])
        false).2.fieldClass = .textField ∧
      (columnAsField (.mk ['v'] (.string none) false false none [] ['t'])
        false).2.maxLength = none) ∧
    ((columnAsField (.mk ['v'] (.string (some 0)) false false none [] ['t'])
        false).2.fieldClass = .textField ∧
      (columnAsField (.mk ['v'] (.string (some 0)) false false none [] ['t'])
        false).2.maxLength = none) :=
  ⟨(columnAsField_string_mapping ['v'] (some 5) false false none ['t'] false).1 4 rfl,
   (columnAsField_string_mapping ['v'] none false false none ['t'] false).2 (Or.inl rfl),
   (columnAsField_string_mapping ['v'] (some 0) false false none ['t'] false).2 (Or.inr rfl)⟩

/-- C7: the type-mapping table sends every supported column type to the
documented field kind, the JSON field uses the non-binary json column type,
and enumerated columns receive the value choices. -/
theorem saTypeToModel_table :
    (∀ l, saTypeToModel (.string l) = .charField) ∧
    (∀ l, saTypeToModel (.text l) = .textField) ∧
    saTypeToModel .integer = .integerField ∧
    saTypeToModel .bigInteger = .bigIntegerField ∧
    saTypeToModel .dateTime = .dateTimeField ∧
    saTypeToModel .date = .dateField ∧
    saTypeToModel .decimal = .decimalField ∧
    saTypeToModel .boolean = .booleanField ∧
    (∀ vs l, saTypeToModel (.enum vs l) = .charField) ∧
    saTypeToModel .uuid = .uuidField ∧
    saTypeToModel .json = .rawJSONField ∧
    RawJSONField.dbType = "json".toList ∧
    (∀ (nm : Str) (vs : List Str) (l : Option Nat) (nl pk : Bool)
        (df : Option DefaultArg) (fks : List SAColumn) (tb : Str) (isPk : Bool),
      (columnAsField (.mk nm (.enum vs l) nl pk df fks tb) isPk).2.choices =
        some (vs.map (fun i => (i, i)))) := by
  refine ⟨fun _ => rfl, fun _ => rfl, rfl, rfl, rfl, rfl, rfl, rfl, fun _ _ => rfl,
    rfl, rfl, rfl, ?_⟩
  intro nm vs l nl pk df fks tb isPk
  cases fks with
  | nil => cases l with
    | none => rfl
    | some k => cases k <;> rfl
  | cons f fks => cases l with
    | none => rfl
    | some k => cases k <;> rfl

/-- C10 is a code bug: for a table with two primary-key columns,
table_as_model passes plain strings to CompositeKeyField.__init__, whose
comprehension reads the db_column attribute of each element, and a Python
str has no such attribute, so model creation raises AttributeError instead
of producing a model whose sole primary key is the synthetic id field. -/
theorem tableAsModel_composite_crash :
    tableAsModel
      { name := ['t'],
        columns := [.mk ['a'] .integer false true none [] ['t'],
                    .mk ['b'] .integer false true none [] ['t']] }
      none = .error .attributeError := by decide

/-- C8: with the default list_display configuration the admin list view
shows the first at most four concrete fields, each relation replaced by its
underlying database column name. -/
theorem getListDisplay_default (listDisplay : List Str) (fields : List AdminField)
    (h : listDisplay = defaultListDisplay) :
    (getListDisplay listDisplay fields).length ≤ 4 ∧
    getListDisplay listDisplay fields =
      ((fields.filter (fun f => f.concrete)).take 4).map
        (fun f => if f.isRelation then f.dbColumn else some f.name) := by
  subst h
  unfold getListDisplay
  rw [if_pos rfl]
  constructor
  · simp only [List.length_map, List.length_take]
    omega
  · rfl

/-- Witness for C8 at a concrete field list with a relation among the first
four concrete fields and more than four fields overall. -/
theorem getListDisplay_default_witness :
    (getListDisplay defaultListDisplay
      [⟨"a".toList, none, false, true⟩,
       ⟨"project".toList, some "project_id".toList, true, true⟩,
       ⟨"pk".toList, none, false, false⟩,
       ⟨"c".toList, none, false, true⟩,
       ⟨"d".toList, none, false, true⟩,
       ⟨"e".toList, none, false, true⟩]).length ≤ 4 ∧
    getListDisplay defaultListDisplay
      [⟨"a".toList, none, false, true⟩,
       ⟨"project".toList, some "project_id".toList, true, true⟩,
       ⟨"pk".toList, none, false, false⟩,
       ⟨"c".toList, none, false, true⟩,
       ⟨"d".toList, none, false, true⟩,
       ⟨"e".toList, none, false, true⟩] =
      ((([⟨"a".toList, none, false, true⟩,
       ⟨"project".toList, some "project_id".toList, true, true⟩,
       ⟨"pk".toList, none, false, false⟩,
       ⟨"c".toList, none, false, true⟩,
       ⟨"d".toList, none, false, true⟩,
       ⟨"e".toList, none, false, true⟩] : List AdminField).filter
          (fun f => f.concrete)).take 4).map
        (fun f => if f.isRelation then f.dbColumn else some f.name) :=
  getListDisplay_default defaultListDisplay
    [⟨"a".toList, none, false, true⟩,
     ⟨"project".toList, some "project_id".toList, true, true⟩,
     ⟨"pk".toList, none, false, false⟩,
     ⟨"c".toList, none, false, true⟩,
     ⟨"d".toList, none, false, true⟩,
     ⟨"e".toList, none, false, true⟩] rfl

/-- C9: whenever the underlying json.loads decoding of a database value
fails, RawJSONField.from_db_value swallows the failure and returns the raw
value unchanged instead of surfacing an exception. -/
theorem rawJSONField_swallows (v : DbValue) (h : jsonDecodeFails v = true) :
    rawJSONFieldFromDbValue v = .ok v := by
  cases v with
  | nullv => exact absurd h (by decide)
  | strv s =>
    have hl : jsonLoads s = none := by
      unfold jsonDecodeFails at h
      exact Option.isNone_iff_eq_none.mp h
    have h2 : jsonFieldFromDbValue (.strv s) = .ok (.strv s) := by
      simp only [jsonFieldFromDbValue, hl]
    unfold rawJSONFieldFromDbValue
    rw [h2]
  | pyObj d => rfl

/-- Witness for C9 at an unparsable string and at an already-decoded
object. -/
theorem rawJSONField_swallows_witness :
    jsonDecodeFails (.strv "notjson".toList) = true ∧
    rawJSONFieldFromDbValue (.strv "notjson".toList) = .ok (.strv "notjson".toList) ∧
    rawJSONFieldFromDbValue (.pyObj [(['a'], JScalar.i 1)]) =
      .ok (.pyObj [(['a'], JScalar.i 1)]) :=
  ⟨by decide, rawJSONField_swallows (.strv "notjson".toList) (by decide),
   rawJSONField_swallows (.pyObj [(['a'], JScalar.i 1)]) (by decide)⟩
